import Mathlib

/-!
LEB128 and string readers of `lldwarf/module.c`

A shallow embedding of `read_uleb128`, `read_sleb128`, `read_strlen` and of the
Python entry points `parse_uleb128`, `parse_sleb128`, `parse_uleb128_offset`,
followed by the properties proved about them.

Conventions of the embedding

* a `uint8_t` is a `Fin 256`; a `uint64_t` is a `Nat` kept below `2 ^ 64` by an
  explicit `% 2 ^ 64`; an `int64_t` is handled as its two's complement bit
  pattern (a `Nat` below `2 ^ 64`) while the code does bit operations on it and
  is read back as an `Int` by `int64_of_bits`;
* `Py_ssize_t` offsets are `Int`: an offset only moves forward over bytes of the
  buffer, so it never leaves the range of the C type;
* a C function `int f(Py_buffer *buffer, Py_ssize_t *offset, T *ret)` becomes a
  function returning the pair of its outcome (`Except.ok ret` for return code
  `0`, `Except.error e` for `-1` with the Python exception `e` set) and the
  value of `*offset` when it returns;
* the `for (;;)` loops take a fuel argument and return `none` when it runs
  out; `read_uleb128` and `read_sleb128` supply `len + 1`, which is never
  exhausted (every iteration consumes one byte of the buffer).
-/

/-- One byte of a buffer (`uint8_t`). -/
abbrev Byte := Fin 256

/-- The Python exception types raised by the readers. -/
inductive PyExc where
  | EOFError
  | OverflowError
  | ValueError
deriving DecidableEq, Repr

/-- A pending Python exception: its type and its message. -/
structure PyErr where
  exc : PyExc
  msg : String
deriving DecidableEq, Repr

deriving instance DecidableEq for Except

/-- The part of a `Py_buffer` the readers use: the bytes `buf[0 .. len)`. -/
structure Py_buffer where
  buf : List Byte
deriving DecidableEq, Repr

/-- The field `buffer->len`. -/
def Py_buffer.len (buffer : Py_buffer) : Int := buffer.buf.length

/-- Modelled from the spec: `read_u8` of `lldwarf.h`, the bounds-checked byte
cursor. A read that begins at or after the end of the buffer fails with
`EOFError` and leaves the offset where it was; otherwise the byte under the
offset is returned and the offset moves one byte forward. -/
def read_u8 (buffer : Py_buffer) (offset : Int) : Except PyErr Byte × Int :=
  if 0 ≤ offset ∧ offset < buffer.len then
    match buffer.buf[offset.toNat]? with
    | some byte => (.ok byte, offset + 1)
    | none => (.error ⟨.EOFError, ""⟩, offset)
  else
    (.error ⟨.EOFError, ""⟩, offset)

/-- The loop of `read_uleb128`; the arguments after the fuel are `*offset`,
`shift` and `*ret` at the top of an iteration. -/
def read_uleb128_loop (buffer : Py_buffer) :
    Nat → Int → Nat → Nat → Option (Except PyErr Nat × Int)
  | 0, _, _, _ => none
  | fuel + 1, offset, shift, ret =>
    match read_u8 buffer offset with
    | (.error e, offset) => some (.error e, offset)
    | (.ok byte, offset) =>
      if shift = 63 ∧ byte.val > 1 then
        some (.error ⟨.OverflowError, "ULEB128 overflowed unsigned 64-bit integer"⟩, offset)
      else
        let ret := ret ||| (((byte.val &&& 0x7f) <<< shift) % 2 ^ 64)
        let shift := shift + 7
        if byte.val &&& 0x80 = 0 then some (.ok ret, offset)
        else read_uleb128_loop buffer fuel offset shift ret

/-- The function `read_uleb128`. -/
def read_uleb128 (buffer : Py_buffer) (offset : Int) : Option (Except PyErr Nat × Int) :=
  read_uleb128_loop buffer (buffer.buf.length + 1) offset 0 0

/-- The value of an `int64_t` with the given two's complement bit pattern. -/
def int64_of_bits (bits : Nat) : Int :=
  if bits % 2 ^ 64 < 2 ^ 63 then (bits % 2 ^ 64 : Nat) else ((bits % 2 ^ 64 : Nat) : Int) - 2 ^ 64

/-- The loop of `read_sleb128`; it hands `*ret` (as a bit pattern), `shift` and
the last `byte` to the code after the loop. The left shift of the signed
operand wraps around modulo `2 ^ 64`. -/
def read_sleb128_loop (buffer : Py_buffer) :
    Nat → Int → Nat → Nat → Option (Except PyErr (Nat × Nat × Byte) × Int)
  | 0, _, _, _ => none
  | fuel + 1, offset, shift, ret =>
    match read_u8 buffer offset with
    | (.error e, offset) => some (.error e, offset)
    | (.ok byte, offset) =>
      if shift = 63 ∧ byte.val ≠ 0 ∧ byte.val ≠ 0x7f then
        some (.error ⟨.OverflowError, "SLEB128 overflowed signed 64-bit integer"⟩, offset)
      else
        let ret := ret ||| (((byte.val &&& 0x7f) <<< shift) % 2 ^ 64)
        let shift := shift + 7
        if byte.val &&& 0x80 = 0 then some (.ok (ret, shift, byte), offset)
        else read_sleb128_loop buffer fuel offset shift ret

/-- The function `read_sleb128`: the loop, then the sign extension
`*ret |= -(INT64_C(1) << shift)`. -/
def read_sleb128 (buffer : Py_buffer) (offset : Int) : Option (Except PyErr Int × Int) :=
  match read_sleb128_loop buffer (buffer.buf.length + 1) offset 0 0 with
  | none => none
  | some (.error e, offset) => some (.error e, offset)
  | some (.ok (ret, shift, byte), offset) =>
    if shift < 64 ∧ byte.val &&& 0x40 ≠ 0 then
      some (.ok (int64_of_bits (ret ||| (2 ^ 64 - 2 ^ shift))), offset)
    else
      some (.ok (int64_of_bits ret), offset)

/-- The libc function `memchr(p, c, n)` on the bytes `p`: the index of the
first byte equal to `c` among the first `n` bytes, `none` for `NULL`. -/
def memchr : List Byte → Byte → Nat → Option Nat
  | _, _, 0 => none
  | [], _, _ + 1 => none
  | b :: p, c, n + 1 => if b = c then some 0 else (memchr p c n).map (· + 1)

/-- The function `read_strlen`; the value returned on success is `*len`. -/
def read_strlen (buffer : Py_buffer) (offset : Int) : Except PyErr Int × Int :=
  if offset ≥ buffer.len then
    (.error ⟨.ValueError, "unexpected EOF while parsing string"⟩, offset)
  else
    let p := buffer.buf.drop offset.toNat
    match memchr p 0 (buffer.len - offset).toNat with
    | none => (.error ⟨.ValueError, "unterminated string"⟩, offset)
    | some nul =>
      let len : Int := nul
      (.ok len, offset + (len + 1))

/-- The entry point `parse_uleb128(buffer, offset)`: the Python integer it
returns, or the exception it raises. -/
def parse_uleb128 (buffer : Py_buffer) (offset : Int) : Option (Except PyErr Nat) :=
  if offset < 0 then
    some (.error ⟨.ValueError, "offset cannot be negative"⟩)
  else
    match read_uleb128 buffer offset with
    | none => none
    | some (.error e, _) =>
      if e.exc = .EOFError then some (.error ⟨.ValueError, "ULEB128 is truncated"⟩)
      else some (.error e)
    | some (.ok value, _) => some (.ok value)

/-- The entry point `parse_sleb128(buffer, offset)`. -/
def parse_sleb128 (buffer : Py_buffer) (offset : Int) : Option (Except PyErr Int) :=
  if offset < 0 then
    some (.error ⟨.ValueError, "offset cannot be negative"⟩)
  else
    match read_sleb128 buffer offset with
    | none => none
    | some (.error e, _) =>
      if e.exc = .EOFError then some (.error ⟨.ValueError, "SLEB128 is truncated"⟩)
      else some (.error e)
    | some (.ok value, _) => some (.ok value)

/-- The entry point `parse_uleb128_offset(buffer, offset)`: the pair of the
value and the ending offset, or the exception raised. -/
def parse_uleb128_offset (buffer : Py_buffer) (offset : Int) :
    Option (Except PyErr (Nat × Int)) :=
  if offset < 0 then
    some (.error ⟨.ValueError, "offset cannot be negative"⟩)
  else
    match read_uleb128 buffer offset with
    | none => none
    | some (.error e, _) =>
      if e.exc = .EOFError then some (.error ⟨.ValueError, "ULEB128 is truncated"⟩)
      else some (.error e)
    | some (.ok value, offset) => some (.ok (value, offset))

/-! ## The error kinds of the specification -/

/-- The exception `Overflow` of an unsigned decode. -/
def uleb128_overflow : PyErr :=
  ⟨.OverflowError, "ULEB128 overflowed unsigned 64-bit integer"⟩

/-- The exception `Overflow` of a signed decode. -/
def sleb128_overflow : PyErr :=
  ⟨.OverflowError, "SLEB128 overflowed signed 64-bit integer"⟩

/-- The exception `Truncated` of an unsigned decode. -/
def uleb128_truncated : PyErr := ⟨.ValueError, "ULEB128 is truncated"⟩

/-- The exception `Truncated` of a signed decode. -/
def sleb128_truncated : PyErr := ⟨.ValueError, "SLEB128 is truncated"⟩

/-- The exception raised for a negative starting offset. -/
def negative_offset : PyErr := ⟨.ValueError, "offset cannot be negative"⟩

/-- The exception `Eof` of the string reader. -/
def strlen_eof : PyErr := ⟨.ValueError, "unexpected EOF while parsing string"⟩

/-- The exception `Unterminated` of the string reader. -/
def strlen_unterminated : PyErr := ⟨.ValueError, "unterminated string"⟩

/-! ## The encoders of the round-trip properties -/

/-- Follows the spec's words: the standard minimal-length ULEB128 encoder. It
emits the low 7 bits of the value, with the high bit set while the remaining
value is non-zero. -/
def encode_uleb128 (v : Nat) : List Byte :=
  if v / 128 = 0 then [Fin.ofNat (v % 128)]
  else Fin.ofNat (v % 128 ||| 0x80) :: encode_uleb128 (v / 128)
termination_by v
decreasing_by omega

/-- Follows the spec's words: the standard minimal-length SLEB128 encoder. It
emits the low 7 bits, shifts the value right arithmetically by 7, and stops
when the rest is 0 with bit 0x40 of the emitted byte clear or the rest is -1
with bit 0x40 set. -/
def encode_sleb128 (v : Int) : List Byte :=
  let byte : Nat := (v % 128).toNat
  let rest : Int := v / 128
  if (rest = 0 ∧ byte &&& 0x40 = 0) ∨ (rest = -1 ∧ byte &&& 0x40 ≠ 0) then [Fin.ofNat byte]
  else Fin.ofNat (byte ||| 0x80) :: encode_sleb128 rest
termination_by v.natAbs
decreasing_by
  rename_i h
  by_cases h0 : v = 0
  · subst h0; simp [byte, rest] at h
  · by_cases h1 : v = -1
    · subst h1; simp [byte, rest] at h
    · omega

/-! ## The readers on the bytes that remain

Auxiliary definitions of the proofs: the two loops as functions of the list of
bytes from the offset on, and the two notions the lemmas about them are phrased with
(a run of continuation bytes, the integer spelled by 7-bit groups). -/

/-- The loop of `read_uleb128` run on the bytes from the offset on: its outcome
and the number of bytes consumed. -/
def uleb_list : List Byte → Nat → Nat → Except PyErr Nat × Nat
  | [], _, _ => (.error ⟨.EOFError, ""⟩, 0)
  | byte :: bs, shift, ret =>
    if shift = 63 ∧ byte.val > 1 then (.error uleb128_overflow, 1)
    else if byte.val &&& 0x80 = 0 then
      (.ok (ret ||| (((byte.val &&& 0x7f) <<< shift) % 2 ^ 64)), 1)
    else
      ((uleb_list bs (shift + 7) (ret ||| (((byte.val &&& 0x7f) <<< shift) % 2 ^ 64))).1,
       (uleb_list bs (shift + 7) (ret ||| (((byte.val &&& 0x7f) <<< shift) % 2 ^ 64))).2 + 1)

/-- The loop of `read_sleb128` run on the bytes from the offset on: its outcome
and the number of bytes consumed. -/
def sleb_loop_list : List Byte → Nat → Nat → Except PyErr (Nat × Nat × Byte) × Nat
  | [], _, _ => (.error ⟨.EOFError, ""⟩, 0)
  | byte :: bs, shift, ret =>
    if shift = 63 ∧ byte.val ≠ 0 ∧ byte.val ≠ 0x7f then (.error sleb128_overflow, 1)
    else if byte.val &&& 0x80 = 0 then
      (.ok (ret ||| (((byte.val &&& 0x7f) <<< shift) % 2 ^ 64), shift + 7, byte), 1)
    else
      ((sleb_loop_list bs (shift + 7)
          (ret ||| (((byte.val &&& 0x7f) <<< shift) % 2 ^ 64))).1,
       (sleb_loop_list bs (shift + 7)
          (ret ||| (((byte.val &&& 0x7f) <<< shift) % 2 ^ 64))).2 + 1)

/-- The code of `read_sleb128` after its loop. -/
def sleb_finish : Except PyErr (Nat × Nat × Byte) → Except PyErr Int
  | .error e => .error e
  | .ok (ret, shift, byte) =>
    if shift < 64 ∧ byte.val &&& 0x40 ≠ 0 then
      .ok (int64_of_bits (ret ||| (2 ^ 64 - 2 ^ shift)))
    else .ok (int64_of_bits ret)

/-- The function `read_sleb128` run on the bytes from the offset on. -/
def sleb_list (bs : List Byte) (shift ret : Nat) : Except PyErr Int × Nat :=
  (sleb_finish (sleb_loop_list bs shift ret).1, (sleb_loop_list bs shift ret).2)

/-- The first `m` bytes of `bs` exist and are continuation bytes (high bit set). -/
def conts (bs : List Byte) (m : Nat) : Prop :=
  ∀ j < m, ∃ b, bs[j]? = some b ∧ 128 ≤ b.val

/-- The unsigned integer spelled by the 7-bit groups of the first `n` bytes. -/
def group_sum (bs : List Byte) (n : Nat) : Nat :=
  ∑ j ∈ Finset.range n, ((bs.getD j 0).val % 128) * 2 ^ (7 * j)

/-! # Properties -/

/-! ## Bytes -/

set_option maxRecDepth 100000 in
theorem byte_and_7f (b : Byte) : b.val &&& 0x7f = b.val % 128 := by
  revert b; decide

set_option maxRecDepth 100000 in
theorem byte_and_80 (b : Byte) : b.val &&& 0x80 = 0 ↔ b.val < 128 := by
  revert b; decide

set_option maxRecDepth 100000 in
theorem byte_and_40 (b : Byte) : b.val &&& 0x40 = 0 ↔ b.val % 128 < 64 := by
  revert b; decide

/-- Adding a 7-bit group above the bits accumulated so far is a plain sum. -/
theorem or_shift_eq_add (ret g shift : Nat) (hret : ret < 2 ^ shift) :
    ret ||| (g <<< shift) = ret + g * 2 ^ shift := by
  rw [Nat.shiftLeft_eq, Nat.lor_comm, Nat.mul_comm g, ← Nat.mul_add_lt_is_or hret g]
  omega

theorem read_u8_drop (buffer : Py_buffer) (k : Nat) :
    read_u8 buffer (k : Int) =
      match buffer.buf.drop k with
      | [] => (.error ⟨.EOFError, ""⟩, (k : Int))
      | b :: _ => (.ok b, (k : Int) + 1) := by
  unfold read_u8 Py_buffer.len
  by_cases hk : k < buffer.buf.length
  · have h1 : (0 : Int) ≤ k ∧ (k : Int) < buffer.buf.length := ⟨by omega, by omega⟩
    rw [if_pos h1, Int.toNat_ofNat, List.getElem?_eq_getElem hk, List.drop_eq_getElem_cons hk]
  · have h1 : ¬ ((0 : Int) ≤ k ∧ (k : Int) < buffer.buf.length) := by omega
    rw [if_neg h1, List.drop_eq_nil_of_le (by omega)]

theorem read_uleb128_loop_eq (buffer : Py_buffer) (fuel : Nat) :
    ∀ (k shift ret : Nat), buffer.buf.length - k < fuel →
      read_uleb128_loop buffer fuel (k : Int) shift ret =
        some ((uleb_list (buffer.buf.drop k) shift ret).1,
          (k : Int) + ((uleb_list (buffer.buf.drop k) shift ret).2 : Nat)) := by
  induction fuel with
  | zero => intro k shift ret h; omega
  | succ fuel ih =>
    intro k shift ret h
    rw [read_uleb128_loop, read_u8_drop]
    by_cases hk : k < buffer.buf.length
    · rw [List.drop_eq_getElem_cons hk]
      simp only [uleb_list, uleb128_overflow]
      split_ifs with h1 h2
      · simp
      · simp
      · have := ih (k + 1) (shift + 7)
          (ret ||| (((buffer.buf[k].val &&& 0x7f) <<< shift) % 2 ^ 64)) (by omega)
        rw [Nat.cast_add, Nat.cast_one] at this
        rw [this]
        simp only [Nat.cast_add, Nat.cast_one]
        congr 2
        omega
    · rw [List.drop_eq_nil_of_le (by omega)]
      simp [uleb_list]

theorem read_uleb128_eq (buffer : Py_buffer) (k : Nat) :
    read_uleb128 buffer (k : Int) =
      some ((uleb_list (buffer.buf.drop k) 0 0).1,
        (k : Int) + ((uleb_list (buffer.buf.drop k) 0 0).2 : Nat)) :=
  read_uleb128_loop_eq buffer _ k 0 0 (by omega)

/-- The 7-bit group of a byte, shifted to its place, fits in 64 bits as long as
the overflow test of the tenth byte has passed. -/
theorem group_shift_mod (b : Byte) (i : Nat) (hi : i ≤ 9) (h9 : i = 9 → b.val ≤ 1) :
    ((b.val &&& 0x7f) <<< (7 * i)) % 2 ^ 64 = (b.val % 128) * 2 ^ (7 * i) := by
  rw [byte_and_7f, Nat.shiftLeft_eq]
  apply Nat.mod_eq_of_lt
  have hb := b.isLt
  interval_cases i <;> norm_num <;> omega

/-- One iteration of the unsigned loop, in arithmetic. -/
theorem uleb_list_cons (b : Byte) (bs : List Byte) (i ret : Nat) (hi : i ≤ 9)
    (hret : ret < 2 ^ (7 * i)) :
    uleb_list (b :: bs) (7 * i) ret =
      if i = 9 ∧ b.val > 1 then (.error uleb128_overflow, 1)
      else if b.val < 128 then (.ok (ret + b.val * 2 ^ (7 * i)), 1)
      else ((uleb_list bs (7 * (i + 1)) (ret + (b.val % 128) * 2 ^ (7 * i))).1,
            (uleb_list bs (7 * (i + 1)) (ret + (b.val % 128) * 2 ^ (7 * i))).2 + 1) := by
  have h63 : (7 * i = 63 ∧ b.val > 1) ↔ (i = 9 ∧ b.val > 1) := by omega
  rw [uleb_list]
  simp only [h63, byte_and_80]
  by_cases h1 : i = 9 ∧ b.val > 1
  · rw [if_pos h1, if_pos h1]
  · rw [if_neg h1, if_neg h1]
    have hg := group_shift_mod b i hi (by omega)
    have hor : ret ||| (((b.val &&& 0x7f) <<< (7 * i)) % 2 ^ 64)
        = ret + (b.val % 128) * 2 ^ (7 * i) := by
      rw [hg, ← Nat.shiftLeft_eq, or_shift_eq_add _ _ _ hret, Nat.shiftLeft_eq]
    rw [hor]
    by_cases h2 : b.val < 128
    · rw [if_pos h2, if_pos h2, Nat.mod_eq_of_lt h2]
    · rw [if_neg h2, if_neg h2, Nat.mul_add, Nat.mul_one]

/-- The value accumulated after a continuation byte stays below the next shift. -/
theorem acc_lt (b : Byte) (i ret : Nat) (hret : ret < 2 ^ (7 * i)) :
    ret + (b.val % 128) * 2 ^ (7 * i) < 2 ^ (7 * (i + 1)) := by
  have h : 2 ^ (7 * (i + 1)) = 128 * 2 ^ (7 * i) := by
    rw [Nat.mul_add, Nat.pow_add]; norm_num; ring
  rw [h]
  have hb : b.val % 128 ≤ 127 := by omega
  nlinarith [Nat.mul_le_mul_right (2 ^ (7 * i)) hb]

theorem or_80_eq_add (x : Nat) (hx : x < 128) : x ||| 0x80 = x + 128 := by
  have h := Nat.mul_add_lt_is_or (show x < 2 ^ 7 from hx) 1
  rw [Nat.lor_comm]
  norm_num at h
  omega

/-- Decoding the minimal encoding of `v`, started in the middle of a value. -/
theorem uleb_list_encode (v : Nat) :
    ∀ (i ret : Nat) (s : List Byte), i ≤ 9 → ret < 2 ^ (7 * i) → v < 2 ^ (64 - 7 * i) →
      uleb_list (encode_uleb128 v ++ s) (7 * i) ret =
        (.ok (ret + v * 2 ^ (7 * i)), (encode_uleb128 v).length) := by
  induction v using Nat.strong_induction_on with
  | _ v ih =>
    intro i ret s hi hret hv
    rw [encode_uleb128]
    by_cases h : v / 128 = 0
    · have hv128 : v < 128 := by omega
      have hval : (Fin.ofNat (v % 128) : Byte).val = v := by
        show v % 128 % 256 = v
        omega
      rw [if_pos h, List.singleton_append, uleb_list_cons _ _ _ _ hi hret, hval]
      have h9 : ¬ (i = 9 ∧ v > 1) := by
        rintro ⟨rfl, h1⟩
        norm_num at hv
        omega
      rw [if_neg h9, if_pos hv128]
      rfl
    · have hlt : v % 128 < 128 := Nat.mod_lt _ (by norm_num)
      have hval : (Fin.ofNat (v % 128 ||| 0x80) : Byte).val = v % 128 + 128 := by
        show (v % 128 ||| 0x80) % 256 = v % 128 + 128
        rw [or_80_eq_add _ hlt]
        omega
      have hi8 : i ≤ 8 := by
        by_contra hc
        have : i = 9 := by omega
        subst this
        norm_num at hv
        omega
      rw [if_neg h, List.cons_append, uleb_list_cons _ _ _ _ hi hret, hval]
      have h9 : ¬ (i = 9 ∧ v % 128 + 128 > 1) := by omega
      have h128 : ¬ (v % 128 + 128 < 128) := by omega
      rw [if_neg h9, if_neg h128]
      have hmod : (v % 128 + 128) % 128 = v % 128 := by omega
      rw [hmod]
      have hacc : ret + v % 128 * 2 ^ (7 * i) < 2 ^ (7 * (i + 1)) := by
        have := acc_lt (Fin.ofNat (v % 128 ||| 0x80) : Byte) i ret hret
        rwa [hval, hmod] at this
      have hv' : v / 128 < 2 ^ (64 - 7 * (i + 1)) := by
        interval_cases i <;> norm_num at hv ⊢ <;> omega
      rw [ih (v / 128) (by omega) (i + 1) _ s (by omega) hacc hv']
      simp only [List.length_cons, Prod.mk.injEq, Except.ok.injEq, and_true]
      interval_cases i <;> norm_num <;> omega

theorem read_sleb128_loop_eq (buffer : Py_buffer) (fuel : Nat) :
    ∀ (k shift ret : Nat), buffer.buf.length - k < fuel →
      read_sleb128_loop buffer fuel (k : Int) shift ret =
        some ((sleb_loop_list (buffer.buf.drop k) shift ret).1,
          (k : Int) + ((sleb_loop_list (buffer.buf.drop k) shift ret).2 : Nat)) := by
  induction fuel with
  | zero => intro k shift ret h; omega
  | succ fuel ih =>
    intro k shift ret h
    rw [read_sleb128_loop, read_u8_drop]
    by_cases hk : k < buffer.buf.length
    · rw [List.drop_eq_getElem_cons hk]
      simp only [sleb_loop_list, sleb128_overflow]
      split_ifs with h1 h2
      · simp
      · simp
      · have := ih (k + 1) (shift + 7)
          (ret ||| (((buffer.buf[k].val &&& 0x7f) <<< shift) % 2 ^ 64)) (by omega)
        rw [Nat.cast_add, Nat.cast_one] at this
        rw [this]
        simp only [Nat.cast_add, Nat.cast_one]
        congr 2
        omega
    · rw [List.drop_eq_nil_of_le (by omega)]
      simp [sleb_loop_list]

theorem read_sleb128_eq (buffer : Py_buffer) (k : Nat) :
    read_sleb128 buffer (k : Int) =
      some ((sleb_list (buffer.buf.drop k) 0 0).1,
        (k : Int) + ((sleb_list (buffer.buf.drop k) 0 0).2 : Nat)) := by
  unfold read_sleb128
  rw [read_sleb128_loop_eq buffer _ k 0 0 (by omega)]
  simp only [sleb_list]
  rcases h : (sleb_loop_list (List.drop k buffer.buf) 0 0) with ⟨r, n⟩
  rcases r with e | ⟨ret, shift, byte⟩
  · simp [sleb_finish]
  · simp only [sleb_finish]
    split_ifs <;> rfl

theorem or_sign_ext (ret m : Nat) (hm : m ≤ 63) (hret : ret < 2 ^ m) :
    ret ||| (2 ^ 64 - 2 ^ m) = ret + (2 ^ 64 - 2 ^ m) := by
  have h : 2 ^ 64 - 2 ^ m = (2 ^ (64 - m) - 1) <<< m := by
    rw [Nat.shiftLeft_eq, Nat.sub_mul, ← Nat.pow_add, Nat.one_mul]
    congr 2
    omega
  rw [h, or_shift_eq_add _ _ _ hret, Nat.shiftLeft_eq]

theorem int64_of_bits_small (x : Nat) (hx : x < 2 ^ 63) : int64_of_bits x = x := by
  unfold int64_of_bits
  have : x % 2 ^ 64 = x := Nat.mod_eq_of_lt (by omega)
  rw [this, if_pos hx]

theorem int64_of_bits_sign_ext (x m : Nat) (hm : m ≤ 63) (hx : x < 2 ^ m) :
    int64_of_bits (x + (2 ^ 64 - 2 ^ m)) = (x : Int) - 2 ^ m := by
  unfold int64_of_bits
  have hP : 2 ^ m ≤ 2 ^ 63 := Nat.pow_le_pow_right (by norm_num) hm
  have hc : ((2 : Int) ^ m) = ((2 ^ m : Nat) : Int) := by push_cast; rfl
  rw [hc]
  generalize 2 ^ m = P at *
  have : (x + (2 ^ 64 - P)) % 2 ^ 64 = x + (2 ^ 64 - P) := Nat.mod_eq_of_lt (by omega)
  rw [this, if_neg (by omega)]
  omega

/-- One iteration of the signed loop, with the sign extension when it is the
last one, in arithmetic. -/
theorem sleb_list_cons (b : Byte) (bs : List Byte) (i ret : Nat) (hi : i ≤ 9)
    (hret : ret < 2 ^ (7 * i)) :
    sleb_list (b :: bs) (7 * i) ret =
      if i = 9 ∧ b.val ≠ 0 ∧ b.val ≠ 0x7f then (.error sleb128_overflow, 1)
      else if b.val < 128 then
        (.ok ((ret : Int) + (b.val : Int) * 2 ^ (7 * i)
          - (if 64 ≤ b.val then 2 ^ (7 * (i + 1)) else 0)), 1)
      else ((sleb_list bs (7 * (i + 1)) (ret + (b.val % 128) * 2 ^ (7 * i))).1,
            (sleb_list bs (7 * (i + 1)) (ret + (b.val % 128) * 2 ^ (7 * i))).2 + 1) := by
  have h63 : (7 * i = 63 ∧ b.val ≠ 0 ∧ b.val ≠ 0x7f) ↔ (i = 9 ∧ b.val ≠ 0 ∧ b.val ≠ 0x7f) := by
    omega
  unfold sleb_list
  rw [sleb_loop_list]
  simp only [h63, byte_and_80]
  by_cases h1 : i = 9 ∧ b.val ≠ 0 ∧ b.val ≠ 0x7f
  · rw [if_pos h1, if_pos h1]; rfl
  · rw [if_neg h1, if_neg h1]
    by_cases h9 : i = 9
    · subst h9
      have hb : b.val = 0 ∨ b.val = 0x7f := by omega
      rcases hb with hb | hb
      · have hb' : b = 0 := Fin.ext hb
        subst hb'
        have hlt : ret < 2 ^ 63 := hret
        have hsh : ((0 : Byte).val &&& 0x7f) <<< 63 % 2 ^ 64 = 0 := by decide
        have h128 : (0 : Byte).val < 128 := by decide
        have h40 : ¬ (63 + 7 < 64 ∧ (0 : Byte).val &&& 0x40 ≠ 0) := by omega
        have h64 : ¬ (64 ≤ (0 : Byte).val) := by decide
        rw [if_pos h128, if_pos h128]
        simp only [sleb_finish, hsh, Nat.or_zero, if_neg h40, if_neg h64,
          int64_of_bits_small ret hlt]
        have hv0 : ((0 : Byte).val : Int) = 0 := by decide
        rw [hv0]
        simp
      · have hb' : b = 0x7f := Fin.ext hb
        subst hb'
        have hlt : ret < 2 ^ 63 := hret
        have hor : ret ||| 2 ^ 63 = ret + 2 ^ 63 := by
          have := or_shift_eq_add ret 1 63 hlt
          simpa using this
        have hval : int64_of_bits (ret + 2 ^ 63) = (ret : Int) - 2 ^ 63 := by
          unfold int64_of_bits
          have : (ret + 2 ^ 63) % 2 ^ 64 = ret + 2 ^ 63 := Nat.mod_eq_of_lt (by omega)
          rw [this, if_neg (by omega)]
          push_cast
          omega
        have hsh : ((0x7f : Byte).val &&& 0x7f) <<< 63 % 2 ^ 64 = 2 ^ 63 := by decide
        have h128 : (0x7f : Byte).val < 128 := by decide
        have h40 : ¬ (63 + 7 < 64 ∧ (0x7f : Byte).val &&& 0x40 ≠ 0) := by omega
        have h64 : 64 ≤ (0x7f : Byte).val := by decide
        rw [if_pos h128, if_pos h128]
        simp only [sleb_finish, hsh, hor, hval, if_neg h40, if_pos h64]
        have hv7 : ((0x7f : Byte).val : Int) = 127 := by decide
        rw [hv7]
        have he : (ret : Int) - 2 ^ 63 = (ret : Int) + 127 * 2 ^ (7 * 9) - 2 ^ (7 * (9 + 1)) := by
          norm_num
          omega
        rw [he]
    · have hi8 : i ≤ 8 := by omega
      have hg := group_shift_mod b i hi (by omega)
      have hor : ret ||| (((b.val &&& 0x7f) <<< (7 * i)) % 2 ^ 64)
          = ret + (b.val % 128) * 2 ^ (7 * i) := by
        rw [hg, ← Nat.shiftLeft_eq, or_shift_eq_add _ _ _ hret, Nat.shiftLeft_eq]
      rw [hor]
      by_cases h2 : b.val < 128
      · rw [if_pos h2, if_pos h2, Nat.mod_eq_of_lt h2]
        have hacc := acc_lt b i ret hret
        rw [Nat.mod_eq_of_lt h2] at hacc
        have hm : 7 * i + 7 ≤ 63 := by omega
        have hm' : 7 * (i + 1) = 7 * i + 7 := by ring
        rw [hm'] at hacc ⊢
        have h40 := byte_and_40 b
        rw [Nat.mod_eq_of_lt h2] at h40
        simp only [sleb_finish]
        by_cases h64 : 64 ≤ b.val
        · have hc : 7 * i + 7 < 64 ∧ b.val &&& 0x40 ≠ 0 :=
            ⟨by omega, fun h => by have := h40.1 h; omega⟩
          rw [if_pos hc, if_pos h64, or_sign_ext _ _ hm hacc,
            int64_of_bits_sign_ext _ _ hm hacc]
          push_cast
          rfl
        · have hc : ¬ (7 * i + 7 < 64 ∧ b.val &&& 0x40 ≠ 0) :=
            fun h => h.2 (h40.2 (by omega))
          have h63' : 2 ^ (7 * i + 7) ≤ 2 ^ 63 := Nat.pow_le_pow_right (by norm_num) hm
          rw [if_neg hc, if_neg h64, int64_of_bits_small _ (by omega)]
          push_cast
          simp
      · rw [if_neg h2, if_neg h2, Nat.mul_add, Nat.mul_one]

theorem nat_and_40 (x : Nat) (hx : x < 128) : x &&& 0x40 = 0 ↔ x < 64 := by
  have h := byte_and_40 ⟨x, by omega⟩
  simp only [Nat.mod_eq_of_lt hx] at h
  exact h

/-- Decoding the minimal signed encoding of `v`, started in the middle of a
value. -/
theorem sleb_list_encode (n : Nat) :
    ∀ (v : Int), v.natAbs = n → ∀ (i ret : Nat) (s : List Byte), i ≤ 9 →
      ret < 2 ^ (7 * i) → -2 ^ (63 - 7 * i) ≤ v → v < 2 ^ (63 - 7 * i) →
      sleb_list (encode_sleb128 v ++ s) (7 * i) ret =
        (.ok ((ret : Int) + v * 2 ^ (7 * i)), (encode_sleb128 v).length) := by
  induction n using Nat.strong_induction_on with
  | _ n ih =>
    intro v hn i ret s hi hret hlo hhi
    have hbyte : (v % 128).toNat < 128 := by omega
    have h40 := nat_and_40 _ hbyte
    rw [encode_sleb128]
    by_cases hstop : (v / 128 = 0 ∧ (v % 128).toNat &&& 0x40 = 0) ∨
        (v / 128 = -1 ∧ (v % 128).toNat &&& 0x40 ≠ 0)
    · rw [if_pos hstop, List.singleton_append, sleb_list_cons _ _ _ _ hi hret]
      have hval : (Fin.ofNat (v % 128).toNat : Byte).val = (v % 128).toNat := by
        show (v % 128).toNat % 256 = (v % 128).toNat
        omega
      rw [hval]
      have h9 : ¬ (i = 9 ∧ (v % 128).toNat ≠ 0 ∧ (v % 128).toNat ≠ 0x7f) := by
        rintro ⟨rfl, h1, h2⟩
        norm_num at hlo hhi
        omega
      rw [if_neg h9, if_pos hbyte]
      simp only [List.length_singleton, Prod.mk.injEq, Except.ok.injEq, and_true]
      rcases hstop with ⟨hr, hb⟩ | ⟨hr, hb⟩
      · have hb' := h40.1 hb
        rw [if_neg (by omega)]
        have hv : ((v % 128).toNat : Int) = v := by omega
        rw [hv]
        simp
      · have hb' : ¬ ((v % 128).toNat < 64) := fun h => hb (h40.2 h)
        rw [if_pos (by omega)]
        have hv : ((v % 128).toNat : Int) = v + 128 := by omega
        rw [hv]
        have hp : (2 : Int) ^ (7 * (i + 1)) = 128 * 2 ^ (7 * i) := by
          rw [Nat.mul_add, pow_add]; norm_num; ring
        rw [hp]
        ring
    · rw [if_neg hstop, List.cons_append, sleb_list_cons _ _ _ _ hi hret]
      have hval : (Fin.ofNat ((v % 128).toNat ||| 0x80) : Byte).val = (v % 128).toNat + 128 := by
        show ((v % 128).toNat ||| 0x80) % 256 = (v % 128).toNat + 128
        rw [or_80_eq_add _ hbyte]
        omega
      rw [hval]
      have hi8 : i ≤ 8 := by
        by_contra hc
        have : i = 9 := by omega
        subst this
        norm_num at hlo hhi
        apply hstop
        have hv : v = 0 ∨ v = -1 := by omega
        rcases hv with rfl | rfl
        · left; decide
        · right; decide
      have h9 : ¬ (i = 9 ∧ (v % 128).toNat + 128 ≠ 0 ∧ (v % 128).toNat + 128 ≠ 0x7f) := by
        omega
      have h128 : ¬ ((v % 128).toNat + 128 < 128) := by omega
      rw [if_neg h9, if_neg h128]
      have hmod : ((v % 128).toNat + 128) % 128 = (v % 128).toNat := by omega
      rw [hmod]
      have hacc : ret + (v % 128).toNat * 2 ^ (7 * i) < 2 ^ (7 * (i + 1)) := by
        have := acc_lt (Fin.ofNat ((v % 128).toNat ||| 0x80) : Byte) i ret hret
        rwa [hval, hmod] at this
      have hdec : (v / 128).natAbs < n := by
        subst hn
        by_cases h0 : v = 0
        · subst h0; exact absurd (Or.inl (by decide)) hstop
        · by_cases h1 : v = -1
          · subst h1; exact absurd (Or.inr (by decide)) hstop
          · omega
      have hlo' : -2 ^ (63 - 7 * (i + 1)) ≤ v / 128 := by
        interval_cases i <;> norm_num at hlo ⊢ <;> omega
      have hhi' : v / 128 < 2 ^ (63 - 7 * (i + 1)) := by
        interval_cases i <;> norm_num at hhi ⊢ <;> omega
      rw [ih _ hdec (v / 128) rfl (i + 1) _ s (by omega) hacc hlo' hhi']
      simp only [List.length_cons, Prod.mk.injEq, Except.ok.injEq, and_true]
      have hp : (2 : Int) ^ (7 * (i + 1)) = 128 * 2 ^ (7 * i) := by
        rw [Nat.mul_add, pow_add]; norm_num; ring
      rw [hp]
      have hv : v = 128 * (v / 128) + ((v % 128).toNat : Int) := by omega
      push_cast
      nth_rewrite 3 [hv]
      ring

theorem conts_zero (bs : List Byte) : conts bs 0 := fun j hj => absurd hj (Nat.not_lt_zero j)

theorem conts_cons (b : Byte) (bs : List Byte) (m : Nat) (hb : 128 ≤ b.val)
    (h : conts bs m) : conts (b :: bs) (m + 1) := by
  intro j hj
  cases j with
  | zero => exact ⟨b, by simp, hb⟩
  | succ j =>
    obtain ⟨c, hc, hc'⟩ := h j (by omega)
    exact ⟨c, by simpa using hc, hc'⟩

theorem group_sum_cons (b : Byte) (bs : List Byte) (n : Nat) :
    group_sum (b :: bs) (n + 1) = b.val % 128 + 128 * group_sum bs n := by
  unfold group_sum
  rw [Finset.sum_range_succ', Finset.mul_sum]
  simp only [List.getD_cons_succ, List.getD_cons_zero, Nat.mul_zero, Nat.pow_zero, Nat.mul_one]
  rw [Nat.add_comm]
  congr 1
  apply Finset.sum_congr rfl
  intro j _
  rw [Nat.mul_add, Nat.pow_add]
  norm_num
  ring

theorem pow_succ7 (i : Nat) : 2 ^ (7 * (i + 1)) = 128 * 2 ^ (7 * i) := by
  rw [Nat.mul_add, Nat.pow_add]; norm_num; ring

/-- What the unsigned loop does on the bytes `bs`, entered with `shift = 7 * i`:
it runs out of bytes, or stops at the first byte with the high bit clear, or
meets a tenth byte that is greater than 1. -/
theorem uleb_list_cases (bs : List Byte) :
    ∀ (i ret : Nat), i ≤ 9 → ret < 2 ^ (7 * i) →
      (∃ m, m = bs.length ∧ conts bs m ∧ m + i ≤ 9 ∧
          uleb_list bs (7 * i) ret = (.error ⟨.EOFError, ""⟩, m)) ∨
      (∃ m b, conts bs m ∧ bs[m]? = some b ∧ b.val < 128 ∧ m + i ≤ 9 ∧
          (m + i = 9 → b.val ≤ 1) ∧
          uleb_list bs (7 * i) ret = (.ok (ret + 2 ^ (7 * i) * group_sum bs (m + 1)), m + 1)) ∨
      (∃ m b, conts bs m ∧ bs[m]? = some b ∧ 1 < b.val ∧ m + i = 9 ∧
          uleb_list bs (7 * i) ret = (.error uleb128_overflow, m + 1)) := by
  induction bs with
  | nil =>
    intro i ret hi hret
    exact Or.inl ⟨0, rfl, conts_zero _, by omega, rfl⟩
  | cons b bs ih =>
    intro i ret hi hret
    rw [uleb_list_cons b bs i ret hi hret]
    by_cases h1 : i = 9 ∧ b.val > 1
    · rw [if_pos h1]
      exact Or.inr (Or.inr ⟨0, b, conts_zero _, by simp, h1.2, by omega, rfl⟩)
    · rw [if_neg h1]
      by_cases h2 : b.val < 128
      · rw [if_pos h2]
        refine Or.inr (Or.inl ⟨0, b, conts_zero _, by simp, h2, by omega, by omega, ?_⟩)
        have hs : group_sum (b :: bs) (0 + 1) = b.val := by
          rw [group_sum_cons]
          simp [group_sum, Nat.mod_eq_of_lt h2]
        rw [hs, Nat.mul_comm]
      · rw [if_neg h2]
        have hi8 : i ≤ 8 := by omega
        have hb : 128 ≤ b.val := by omega
        rcases ih (i + 1) (ret + b.val % 128 * 2 ^ (7 * i)) (by omega) (acc_lt b i ret hret)
          with ⟨m, hm, hc, hle, hr⟩ | ⟨m, c, hc, hget, hlt, hle, h9, hr⟩ |
            ⟨m, c, hc, hget, hgt, hle, hr⟩
        · refine Or.inl ⟨m + 1, by simp [hm], conts_cons b bs m hb hc, by omega, ?_⟩
          rw [hr]
        · refine Or.inr (Or.inl ⟨m + 1, c, conts_cons b bs m hb hc, by simpa using hget, hlt,
            by omega, fun h => h9 (by omega), ?_⟩)
          rw [hr, group_sum_cons, pow_succ7]
          simp only [Prod.mk.injEq, Except.ok.injEq, and_true]
          ring
        · refine Or.inr (Or.inr ⟨m + 1, c, conts_cons b bs m hb hc, by simpa using hget, hgt,
            by omega, ?_⟩)
          rw [hr]

/-- What `read_sleb128` does on the bytes `bs`, entered with `shift = 7 * i`:
it runs out of bytes, or stops at the first byte with the high bit clear, or
meets a tenth byte that is neither 0x00 nor 0x7f. -/
theorem sleb_list_cases (bs : List Byte) :
    ∀ (i ret : Nat), i ≤ 9 → ret < 2 ^ (7 * i) →
      (∃ m, m = bs.length ∧ conts bs m ∧ m + i ≤ 9 ∧
          sleb_list bs (7 * i) ret = (.error ⟨.EOFError, ""⟩, m)) ∨
      (∃ m b, conts bs m ∧ bs[m]? = some b ∧ b.val < 128 ∧ m + i ≤ 9 ∧
          (m + i = 9 → b.val = 0 ∨ b.val = 0x7f) ∧
          sleb_list bs (7 * i) ret =
            (.ok ((ret : Int) + 2 ^ (7 * i) * (group_sum bs (m + 1) : Nat)
              - (if 64 ≤ b.val then 2 ^ (7 * (i + m + 1)) else 0)), m + 1)) ∨
      (∃ m b, conts bs m ∧ bs[m]? = some b ∧ b.val ≠ 0 ∧ b.val ≠ 0x7f ∧ m + i = 9 ∧
          sleb_list bs (7 * i) ret = (.error sleb128_overflow, m + 1)) := by
  induction bs with
  | nil =>
    intro i ret hi hret
    exact Or.inl ⟨0, rfl, conts_zero _, by omega, rfl⟩
  | cons b bs ih =>
    intro i ret hi hret
    rw [sleb_list_cons b bs i ret hi hret]
    by_cases h1 : i = 9 ∧ b.val ≠ 0 ∧ b.val ≠ 0x7f
    · rw [if_pos h1]
      exact Or.inr (Or.inr ⟨0, b, conts_zero _, by simp, h1.2.1, h1.2.2, by omega, rfl⟩)
    · rw [if_neg h1]
      by_cases h2 : b.val < 128
      · rw [if_pos h2]
        refine Or.inr (Or.inl ⟨0, b, conts_zero _, by simp, h2, by omega, by omega, ?_⟩)
        have hs : group_sum (b :: bs) (0 + 1) = b.val := by
          rw [group_sum_cons]
          simp [group_sum, Nat.mod_eq_of_lt h2]
        rw [hs, Nat.add_zero, mul_comm]
      · rw [if_neg h2]
        have hi8 : i ≤ 8 := by omega
        have hb : 128 ≤ b.val := by omega
        rcases ih (i + 1) (ret + b.val % 128 * 2 ^ (7 * i)) (by omega) (acc_lt b i ret hret)
          with ⟨m, hm, hc, hle, hr⟩ | ⟨m, c, hc, hget, hlt, hle, h9, hr⟩ |
            ⟨m, c, hc, hget, hn0, hn7, hle, hr⟩
        · refine Or.inl ⟨m + 1, by simp [hm], conts_cons b bs m hb hc, by omega, ?_⟩
          rw [hr]
        · refine Or.inr (Or.inl ⟨m + 1, c, conts_cons b bs m hb hc, by simpa using hget, hlt,
            by omega, fun h => h9 (by omega), ?_⟩)
          have he : i + 1 + m + 1 = i + (m + 1) + 1 := by omega
          have hp : (2 : Int) ^ (7 * (i + 1)) = 128 * 2 ^ (7 * i) := by
            rw [Nat.mul_add, pow_add]; norm_num; ring
          rw [hr, group_sum_cons, he, hp]
          simp only [Prod.mk.injEq, Except.ok.injEq, and_true]
          push_cast
          ring
        · refine Or.inr (Or.inr ⟨m + 1, c, conts_cons b bs m hb hc, by simpa using hget, hn0,
            hn7, by omega, ?_⟩)
          rw [hr]

theorem encode_sleb128_cons (v : Int)
    (h : ¬ ((v / 128 = 0 ∧ (v % 128).toNat &&& 0x40 = 0) ∨
        (v / 128 = -1 ∧ (v % 128).toNat &&& 0x40 ≠ 0))) :
    encode_sleb128 v = Fin.ofNat ((v % 128).toNat ||| 0x80) :: encode_sleb128 (v / 128) := by
  rw [encode_sleb128, if_neg h]

/-- The encoding of the least signed 64-bit value. -/
theorem encode_sleb128_min :
    encode_sleb128 (-2 ^ 63) = [0x80, 0x80, 0x80, 0x80, 0x80, 0x80, 0x80, 0x80, 0x80, 0x7f] := by
  have e : (-2 ^ 63 : Int) = -9223372036854775808 := by norm_num
  rw [e]
  iterate 9 rw [encode_sleb128_cons _ (by decide)]
  rw [encode_sleb128, if_pos (by decide)]
  decide

/-- The encoding of the greatest signed 64-bit value. -/
theorem encode_sleb128_max :
    encode_sleb128 (2 ^ 63 - 1)
      = [0xff, 0xff, 0xff, 0xff, 0xff, 0xff, 0xff, 0xff, 0xff, 0x00] := by
  have e : (2 ^ 63 - 1 : Int) = 9223372036854775807 := by norm_num
  rw [e]
  iterate 9 rw [encode_sleb128_cons _ (by decide)]
  rw [encode_sleb128, if_pos (by decide)]
  decide

/-- The readers return: the fuel they give their loop is never exhausted. -/
theorem read_leb128_total (buffer : Py_buffer) (offset : Int) :
    (∃ r, read_uleb128 buffer offset = some r) ∧ (∃ r, read_sleb128 buffer offset = some r) := by
  by_cases h0 : 0 ≤ offset
  · obtain ⟨k, rfl⟩ := Int.eq_ofNat_of_zero_le h0
    exact ⟨⟨_, read_uleb128_eq buffer k⟩, ⟨_, read_sleb128_eq buffer k⟩⟩
  · have h8 : read_u8 buffer offset = (.error ⟨.EOFError, ""⟩, offset) := by
      unfold read_u8
      rw [if_neg (by omega)]
    constructor
    · unfold read_uleb128
      rw [read_uleb128_loop, h8]
      exact ⟨_, rfl⟩
    · unfold read_sleb128
      rw [read_sleb128_loop, h8]
      exact ⟨_, rfl⟩

theorem drop_prepended (p e s : List Byte) : (p ++ e ++ s).drop p.length = e ++ s := by
  rw [List.append_assoc, List.drop_left]

/-- C1. ULEB128 round trip: for every unsigned 64-bit value `v`, every prefix
`p` and every suffix `s`, `read_uleb128` on `p ++ encode_uleb128 v ++ s` started
at offset `|p|` succeeds, returns exactly `v` and leaves the offset at
`|p| + |encode_uleb128 v|` (and `parse_uleb128` returns `v`); the bytes
`[0xE5, 0x8E, 0x26]` are the encoding of 624485 and decode to it. -/
theorem uleb128_round_trip :
    (∀ (v : Nat), v < 2 ^ 64 → ∀ (p s : List Byte),
      read_uleb128 ⟨p ++ encode_uleb128 v ++ s⟩ (p.length : Int) =
          some (.ok v, (p.length : Int) + ((encode_uleb128 v).length : Nat))
        ∧ parse_uleb128 ⟨p ++ encode_uleb128 v ++ s⟩ (p.length : Int) = some (.ok v))
    ∧ encode_uleb128 624485 = [0xE5, 0x8E, 0x26]
    ∧ read_uleb128 ⟨[0xE5, 0x8E, 0x26]⟩ 0 = some (.ok 624485, 3) := by
  refine ⟨?_, ?_, by decide⟩
  · intro v hv p s
    have h := read_uleb128_eq ⟨p ++ encode_uleb128 v ++ s⟩ p.length
    simp only [drop_prepended] at h
    have h2 := uleb_list_encode v 0 0 s (by omega) (by norm_num) (by simpa using hv)
    simp only [Nat.mul_zero, Nat.pow_zero, Nat.mul_one, Nat.zero_add] at h2
    rw [h2] at h
    refine ⟨h, ?_⟩
    unfold parse_uleb128
    rw [if_neg (by omega), h]
  · rw [encode_uleb128, if_neg (by decide), encode_uleb128, if_neg (by decide), encode_uleb128,
      if_pos (by decide)]
    decide

/-- Witness of C1 at `v = 300` between the prefix `[0xff]` and the suffix `[0x01]`. -/
theorem uleb128_round_trip_witness :
    (300 : Nat) < 2 ^ 64 ∧
      read_uleb128 ⟨[0xff] ++ encode_uleb128 300 ++ [0x01]⟩ (([0xff] : List Byte).length : Int) =
        some (.ok 300, (([0xff] : List Byte).length : Int) + ((encode_uleb128 300).length : Nat)) :=
  ⟨by norm_num, (uleb128_round_trip.1 300 (by norm_num) [0xff] [0x01]).1⟩

/-- C2. SLEB128 round trip: for every signed 64-bit value `v`, every prefix `p`
and every suffix `s`, `read_sleb128` on `p ++ encode_sleb128 v ++ s` started at
offset `|p|` succeeds, returns exactly `v` and leaves the offset at
`|p| + |encode_sleb128 v|` (and `parse_sleb128` returns `v`); the encodings of
`-2 ^ 63` and of `2 ^ 63 - 1` are ten bytes long; the bytes
`[0x9B, 0xF1, 0x59]` are the encoding of -624485 and decode to it. -/
theorem sleb128_round_trip :
    (∀ (v : Int), -2 ^ 63 ≤ v → v < 2 ^ 63 → ∀ (p s : List Byte),
      read_sleb128 ⟨p ++ encode_sleb128 v ++ s⟩ (p.length : Int) =
          some (.ok v, (p.length : Int) + ((encode_sleb128 v).length : Nat))
        ∧ parse_sleb128 ⟨p ++ encode_sleb128 v ++ s⟩ (p.length : Int) = some (.ok v))
    ∧ encode_sleb128 (-2 ^ 63)
        = [0x80, 0x80, 0x80, 0x80, 0x80, 0x80, 0x80, 0x80, 0x80, 0x7f]
    ∧ encode_sleb128 (2 ^ 63 - 1)
        = [0xff, 0xff, 0xff, 0xff, 0xff, 0xff, 0xff, 0xff, 0xff, 0x00]
    ∧ encode_sleb128 (-624485) = [0x9B, 0xF1, 0x59]
    ∧ read_sleb128 ⟨[0x9B, 0xF1, 0x59]⟩ 0 = some (.ok (-624485), 3) := by
  refine ⟨?_, encode_sleb128_min, encode_sleb128_max, ?_, by decide⟩
  · intro v hlo hhi p s
    have h := read_sleb128_eq ⟨p ++ encode_sleb128 v ++ s⟩ p.length
    simp only [drop_prepended] at h
    have h2 := sleb_list_encode _ v rfl 0 0 s (by omega) (by norm_num) (by simpa using hlo)
      (by simpa using hhi)
    simp only [Nat.mul_zero, pow_zero, mul_one, Nat.cast_zero, zero_add] at h2
    rw [h2] at h
    refine ⟨h, ?_⟩
    unfold parse_sleb128
    rw [if_neg (by omega), h]
  · rw [encode_sleb128, if_neg (by decide), encode_sleb128, if_neg (by decide), encode_sleb128,
      if_pos (by decide)]
    decide

/-- Witness of C2 at the least signed 64-bit value. -/
theorem sleb128_round_trip_witness :
    (-2 ^ 63 : Int) ≤ -2 ^ 63 ∧ (-2 ^ 63 : Int) < 2 ^ 63 ∧
      read_sleb128 ⟨[] ++ encode_sleb128 (-2 ^ 63) ++ [0x01]⟩ (([] : List Byte).length : Int) =
        some (.ok (-2 ^ 63),
          (([] : List Byte).length : Int) + ((encode_sleb128 (-2 ^ 63)).length : Nat)) :=
  ⟨by norm_num, by norm_num, (sleb128_round_trip.1 (-2 ^ 63) (by norm_num) (by norm_num) [] [0x01]).1⟩

/-! ## From the remaining bytes back to the buffer -/

theorem conts_drop_iff (buf : List Byte) (k m : Nat) :
    conts (buf.drop k) m ↔
      ∀ j < m, ∃ b, buf[k + j]? = some b ∧ b.val &&& 0x80 ≠ 0 := by
  unfold conts
  constructor
  · intro h j hj
    obtain ⟨b, hb, hb'⟩ := h j hj
    rw [List.getElem?_drop] at hb
    exact ⟨b, hb, fun h0 => by have := (byte_and_80 b).1 h0; omega⟩
  · intro h j hj
    obtain ⟨b, hb, hb'⟩ := h j hj
    refine ⟨b, by rw [List.getElem?_drop]; exact hb, ?_⟩
    by_contra hc
    exact hb' ((byte_and_80 b).2 (by omega))

theorem group_sum_drop (buf : List Byte) (k n : Nat) :
    group_sum (buf.drop k) n =
      ∑ j ∈ Finset.range n, ((buf.getD (k + j) 0).val &&& 0x7f) * 2 ^ (7 * j) := by
  unfold group_sum
  apply Finset.sum_congr rfl
  intro j _
  rw [byte_and_7f, List.getD_eq_getElem?_getD, List.getD_eq_getElem?_getD, List.getElem?_drop]

theorem group_sum_succ (bs : List Byte) (n : Nat) :
    group_sum bs (n + 1) = group_sum bs n + ((bs.getD n 0).val % 128) * 2 ^ (7 * n) := by
  unfold group_sum
  rw [Finset.sum_range_succ]

theorem group_sum_lt (bs : List Byte) (n : Nat) : group_sum bs n < 2 ^ (7 * n) := by
  induction n with
  | zero => simp [group_sum]
  | succ n ih =>
    rw [group_sum_succ, pow_succ7]
    have hb : (bs.getD n 0).val % 128 ≤ 127 := by omega
    nlinarith [Nat.mul_le_mul_right (2 ^ (7 * n)) hb]

theorem getD_of_getElem? (bs : List Byte) (m : Nat) (b : Byte) (h : bs[m]? = some b) :
    bs.getD m 0 = b := by
  rw [List.getD_eq_getElem?_getD, h]
  rfl

/-- The sum of the groups of a successful unsigned decode fits in 64 bits. -/
theorem group_sum_lt_u64 (bs : List Byte) (m : Nat) (b : Byte) (hget : bs[m]? = some b)
    (hm : m ≤ 9) (h9 : m = 9 → b.val ≤ 1) : group_sum bs (m + 1) < 2 ^ 64 := by
  rw [group_sum_succ, getD_of_getElem? bs m b hget]
  have hlt := group_sum_lt bs m
  by_cases h : m = 9
  · subst h
    have := h9 rfl
    norm_num at hlt ⊢
    omega
  · have hm8 : m ≤ 8 := by omega
    have hp : 2 ^ (7 * m) ≤ 2 ^ 56 := Nat.pow_le_pow_right (by norm_num) (by omega)
    have hb : b.val % 128 ≤ 127 := by omega
    have := Nat.mul_le_mul hb hp
    norm_num at this hp ⊢
    omega

/-- C3. Postcondition of a successful unsigned decode: if `read_uleb128`
succeeds from an offset `0 <= offset < len`, then, with `n` the least positive
count such that the byte at `offset + n - 1` has its high bit clear, `n <= 10`,
the value is the exact sum of `(byte[offset + i] & 0x7f) * 2 ^ (7 * i)` over
`i < n` (which is below `2 ^ 64`, so nothing wraps), the offset is advanced by
exactly `n` with `offset < new offset <= len`, `parse_uleb128_offset` returns
this value with this ending offset and `parse_uleb128` returns this value. -/
theorem read_uleb128_success (buffer : Py_buffer) (offset : Int) (v : Nat) (offset' : Int)
    (h0 : 0 ≤ offset) (hlen : offset < buffer.len)
    (h : read_uleb128 buffer offset = some (.ok v, offset')) :
    ∃ n : Nat, 1 ≤ n ∧ n ≤ 10 ∧
      (∃ b, buffer.buf[offset.toNat + (n - 1)]? = some b ∧ b.val &&& 0x80 = 0) ∧
      (∀ j, j + 1 < n → ∃ b, buffer.buf[offset.toNat + j]? = some b ∧ b.val &&& 0x80 ≠ 0) ∧
      v = ∑ i ∈ Finset.range n,
            ((buffer.buf.getD (offset.toNat + i) 0).val &&& 0x7f) * 2 ^ (7 * i) ∧
      v < 2 ^ 64 ∧
      offset' = offset + n ∧ offset < offset' ∧ offset' ≤ buffer.len ∧
      parse_uleb128_offset buffer offset = some (.ok (v, offset')) ∧
      parse_uleb128 buffer offset = some (.ok v) := by
  have hp1 : parse_uleb128_offset buffer offset = some (.ok (v, offset')) := by
    unfold parse_uleb128_offset
    rw [if_neg (by omega), h]
  have hp2 : parse_uleb128 buffer offset = some (.ok v) := by
    unfold parse_uleb128
    rw [if_neg (by omega), h]
  obtain ⟨k, rfl⟩ := Int.eq_ofNat_of_zero_le h0
  rw [read_uleb128_eq] at h
  simp only [Int.toNat_ofNat]
  rcases uleb_list_cases (buffer.buf.drop k) 0 0 (by omega) (by norm_num)
    with ⟨m, _, _, _, hr⟩ | ⟨m, b, hc, hget, hlt, hle, h9, hr⟩ | ⟨m, c, _, _, _, _, hr⟩
  · rw [hr] at h; simp at h
  · rw [hr] at h
    simp only [Nat.mul_zero, Nat.pow_zero, Nat.one_mul, Nat.zero_add, Option.some.injEq,
      Prod.mk.injEq, Except.ok.injEq] at h
    obtain ⟨hv, ho⟩ := h
    have hget' : buffer.buf[k + m]? = some b := by rw [← List.getElem?_drop]; exact hget
    have hklen : k + m < buffer.buf.length := by
      by_contra hc'
      rw [List.getElem?_eq_none (by omega)] at hget'
      simp at hget'
    refine ⟨m + 1, by omega, by omega, ⟨b, by simpa using hget', (byte_and_80 b).2 hlt⟩, ?_,
      ?_, ?_, ?_, ?_, ?_, hp1, hp2⟩
    · intro j hj
      exact (conts_drop_iff buffer.buf k m).1 hc j (by omega)
    · rw [← hv, group_sum_drop]
    · rw [← hv]
      exact group_sum_lt_u64 _ m b hget (by omega) (fun h => h9 (by omega))
    · rw [← ho]
    · rw [← ho]; push_cast; omega
    · rw [← ho]; unfold Py_buffer.len; push_cast; omega
  · rw [hr] at h; simp [uleb128_overflow] at h

/-- Witness of C3 on the three bytes that spell 624485. -/
theorem read_uleb128_success_witness :
    ∃ n : Nat, 1 ≤ n ∧ n ≤ 10 ∧
      (∃ b, (Py_buffer.mk [0xE5, 0x8E, 0x26]).buf[(0 : Int).toNat + (n - 1)]? = some b ∧
        b.val &&& 0x80 = 0) ∧
      (∀ j, j + 1 < n → ∃ b, (Py_buffer.mk [0xE5, 0x8E, 0x26]).buf[(0 : Int).toNat + j]? = some b ∧
        b.val &&& 0x80 ≠ 0) ∧
      624485 = ∑ i ∈ Finset.range n,
            (((Py_buffer.mk [0xE5, 0x8E, 0x26]).buf.getD ((0 : Int).toNat + i) 0).val &&& 0x7f)
              * 2 ^ (7 * i) ∧
      624485 < 2 ^ 64 ∧
      (3 : Int) = 0 + n ∧ (0 : Int) < 3 ∧ (3 : Int) ≤ (Py_buffer.mk [0xE5, 0x8E, 0x26]).len ∧
      parse_uleb128_offset ⟨[0xE5, 0x8E, 0x26]⟩ 0 = some (.ok (624485, 3)) ∧
      parse_uleb128 ⟨[0xE5, 0x8E, 0x26]⟩ 0 = some (.ok 624485) :=
  read_uleb128_success ⟨[0xE5, 0x8E, 0x26]⟩ 0 624485 3 (by decide) (by decide) (by decide)

theorem getElem?_lt_length (bs : List Byte) (m : Nat) (b : Byte) (h : bs[m]? = some b) :
    m < bs.length := by
  by_contra hc
  rw [List.getElem?_eq_none (by omega)] at h
  simp at h

/-- The unsigned loop overflows exactly on nine continuation bytes followed by
a byte greater than 1, and it has then consumed ten bytes. -/
theorem uleb_list_overflow_iff (bs : List Byte) :
    (uleb_list bs 0 0).1 = .error uleb128_overflow ↔
      conts bs 9 ∧ ∃ b, bs[9]? = some b ∧ 1 < b.val := by
  have hcases := uleb_list_cases bs 0 0 (by omega) (by norm_num)
  simp only [Nat.mul_zero, Nat.add_zero] at hcases
  constructor
  · intro h
    rcases hcases with ⟨m, _, _, _, hr⟩ | ⟨m, b, _, _, _, _, _, hr⟩ | ⟨m, c, hc, hget, hgt, hm, hr⟩
    · rw [hr] at h; simp [uleb128_overflow] at h
    · rw [hr] at h; simp at h
    · subst hm; exact ⟨hc, c, hget, hgt⟩
  · rintro ⟨hc9, b, hget, hgt⟩
    have hlen := getElem?_lt_length bs 9 b hget
    rcases hcases with ⟨m, hm, _, hle, hr⟩ | ⟨m, c, hc, hgetc, hlt, hle, h9, hr⟩ |
      ⟨m, c, hc, hget', hgt', hm, hr⟩
    · omega
    · exfalso
      by_cases hm9 : m = 9
      · subst hm9
        rw [hget] at hgetc
        have := h9 rfl
        simp only [Option.some.injEq] at hgetc
        subst hgetc
        omega
      · obtain ⟨d, hd, hd'⟩ := hc9 m (by omega)
        rw [hgetc] at hd
        simp only [Option.some.injEq] at hd
        subst hd
        omega
    · rw [hr]

theorem uleb_list_overflow_consumed (bs : List Byte)
    (h : (uleb_list bs 0 0).1 = .error uleb128_overflow) : (uleb_list bs 0 0).2 = 10 := by
  rcases uleb_list_cases bs 0 0 (by omega) (by norm_num)
    with ⟨m, _, _, _, hr⟩ | ⟨m, b, _, _, _, _, _, hr⟩ | ⟨m, c, hc, hget, hgt, hm, hr⟩
  · rw [hr] at h; simp [uleb128_overflow] at h
  · rw [hr] at h; simp at h
  · rw [hr]; simp only [Nat.add_zero] at hm; subst hm; rfl

/-- C5. ULEB128 overflow detection: from an offset `>= 0`, `read_uleb128` fails
with the Overflow error if and only if the nine bytes at `offset .. offset + 8`
all exist with the high bit set and a tenth byte exists at `offset + 9` whose
value is greater than 1; the offset is then just past that tenth byte, no value
is returned, and `parse_uleb128` raises the same error. -/
theorem read_uleb128_overflow_iff (buffer : Py_buffer) (offset : Int) (h0 : 0 ≤ offset) :
    ((∃ offset', read_uleb128 buffer offset = some (.error uleb128_overflow, offset')) ↔
      ((∀ j < 9, ∃ b, buffer.buf[offset.toNat + j]? = some b ∧ b.val &&& 0x80 ≠ 0) ∧
        ∃ b, buffer.buf[offset.toNat + 9]? = some b ∧ 1 < b.val)) ∧
    (((∀ j < 9, ∃ b, buffer.buf[offset.toNat + j]? = some b ∧ b.val &&& 0x80 ≠ 0) ∧
        ∃ b, buffer.buf[offset.toNat + 9]? = some b ∧ 1 < b.val) →
      read_uleb128 buffer offset = some (.error uleb128_overflow, offset + 10) ∧
      (∀ v offset', read_uleb128 buffer offset ≠ some (.ok v, offset')) ∧
      parse_uleb128 buffer offset = some (.error uleb128_overflow)) := by
  have hneg : ¬ offset < 0 := by omega
  obtain ⟨k, rfl⟩ := Int.eq_ofNat_of_zero_le h0
  simp only [Int.toNat_ofNat]
  have hiff := uleb_list_overflow_iff (buffer.buf.drop k)
  rw [conts_drop_iff] at hiff
  simp only [List.getElem?_drop] at hiff
  have heq := read_uleb128_eq buffer k
  constructor
  · rw [← hiff]
    constructor
    · rintro ⟨o, ho⟩
      rw [heq] at ho
      simp only [Option.some.injEq, Prod.mk.injEq] at ho
      exact ho.1
    · intro h
      exact ⟨_, by rw [heq, h]⟩
  · intro h
    have h1 := hiff.2 h
    have h2 := uleb_list_overflow_consumed _ h1
    have hread : read_uleb128 buffer (k : Int) = some (.error uleb128_overflow, (k : Int) + 10) := by
      rw [heq, h1, h2]; rfl
    refine ⟨hread, ?_, ?_⟩
    · intro v o hc
      rw [hread] at hc
      simp at hc
    · unfold parse_uleb128
      rw [if_neg hneg, hread]
      rfl

/-- Witness of C5 on nine continuation bytes followed by the byte 2. -/
theorem read_uleb128_overflow_iff_witness :
    (0 : Int) ≤ 0 ∧
    read_uleb128 ⟨[0x80, 0x80, 0x80, 0x80, 0x80, 0x80, 0x80, 0x80, 0x80, 0x02]⟩ 0
      = some (.error uleb128_overflow, 0 + 10) :=
  ⟨by decide,
   ((read_uleb128_overflow_iff
      ⟨[0x80, 0x80, 0x80, 0x80, 0x80, 0x80, 0x80, 0x80, 0x80, 0x02]⟩ 0 (by decide)).2
      (by decide)).1⟩

/-- The signed reader overflows exactly on nine continuation bytes followed by
a byte that is neither 0x00 nor 0x7f. -/
theorem sleb_list_overflow_iff (bs : List Byte) :
    (sleb_list bs 0 0).1 = .error sleb128_overflow ↔
      conts bs 9 ∧ ∃ b, bs[9]? = some b ∧ b.val ≠ 0 ∧ b.val ≠ 0x7f := by
  have hcases := sleb_list_cases bs 0 0 (by omega) (by norm_num)
  simp only [Nat.mul_zero, Nat.add_zero] at hcases
  constructor
  · intro h
    rcases hcases with ⟨m, _, _, _, hr⟩ | ⟨m, b, _, _, _, _, _, hr⟩ |
      ⟨m, c, hc, hget, hn0, hn7, hm, hr⟩
    · rw [hr] at h; simp [sleb128_overflow] at h
    · rw [hr] at h; simp at h
    · subst hm; exact ⟨hc, c, hget, hn0, hn7⟩
  · rintro ⟨hc9, b, hget, hn0, hn7⟩
    have hlen := getElem?_lt_length bs 9 b hget
    rcases hcases with ⟨m, hm, _, hle, hr⟩ | ⟨m, c, hc, hgetc, hlt, hle, h9, hr⟩ |
      ⟨m, c, hc, hget', _, _, hm, hr⟩
    · omega
    · exfalso
      by_cases hm9 : m = 9
      · subst hm9
        rw [hget] at hgetc
        have := h9 rfl
        simp only [Option.some.injEq] at hgetc
        subst hgetc
        omega
      · obtain ⟨d, hd, hd'⟩ := hc9 m (by omega)
        rw [hgetc] at hd
        simp only [Option.some.injEq] at hd
        subst hd
        omega
    · rw [hr]

theorem sleb_list_overflow_consumed (bs : List Byte)
    (h : (sleb_list bs 0 0).1 = .error sleb128_overflow) : (sleb_list bs 0 0).2 = 10 := by
  rcases sleb_list_cases bs 0 0 (by omega) (by norm_num)
    with ⟨m, _, _, _, hr⟩ | ⟨m, b, _, _, _, _, _, hr⟩ | ⟨m, c, hc, hget, _, _, hm, hr⟩
  · rw [hr] at h; simp [sleb128_overflow] at h
  · rw [hr] at h; simp at h
  · rw [hr]; simp only [Nat.add_zero] at hm; subst hm; rfl

/-- On nine continuation bytes followed by 0x00 or 0x7f the signed reader
succeeds after ten bytes. -/
theorem sleb_list_tenth_ok (bs : List Byte) (hc9 : conts bs 9) (b : Byte)
    (hget : bs[9]? = some b) (hb : b.val = 0 ∨ b.val = 0x7f) :
    ∃ v, sleb_list bs 0 0 = (.ok v, 10) := by
  have hlen := getElem?_lt_length bs 9 b hget
  rcases sleb_list_cases bs 0 0 (by omega) (by norm_num)
    with ⟨m, hm, _, hle, hr⟩ | ⟨m, c, hc, hgetc, hlt, hle, h9, hr⟩ |
      ⟨m, c, hc, hget', hn0, hn7, hm, hr⟩
  · omega
  · by_cases hm9 : m = 9
    · subst hm9
      exact ⟨_, hr⟩
    · exfalso
      obtain ⟨d, hd, hd'⟩ := hc9 m (by omega)
      rw [hgetc] at hd
      simp only [Option.some.injEq] at hd
      subst hd
      omega
  · exfalso
    simp only [Nat.add_zero] at hm
    subst hm
    rw [hget] at hget'
    simp only [Option.some.injEq] at hget'
    subst hget'
    omega

/-- C6. SLEB128 overflow detection: from an offset `>= 0`, `read_sleb128` fails
with the Overflow error if and only if the nine bytes at `offset .. offset + 8`
all exist with the high bit set and a tenth byte exists at `offset + 9` that is
neither 0x00 nor 0x7f; when the tenth byte is 0x00 or 0x7f the decode succeeds
after exactly ten bytes. -/
theorem read_sleb128_overflow_iff (buffer : Py_buffer) (offset : Int) (h0 : 0 ≤ offset) :
    ((∃ offset', read_sleb128 buffer offset = some (.error sleb128_overflow, offset')) ↔
      ((∀ j < 9, ∃ b, buffer.buf[offset.toNat + j]? = some b ∧ b.val &&& 0x80 ≠ 0) ∧
        ∃ b, buffer.buf[offset.toNat + 9]? = some b ∧ b.val ≠ 0 ∧ b.val ≠ 0x7f)) ∧
    (((∀ j < 9, ∃ b, buffer.buf[offset.toNat + j]? = some b ∧ b.val &&& 0x80 ≠ 0) ∧
        ∃ b, buffer.buf[offset.toNat + 9]? = some b ∧ b.val ≠ 0 ∧ b.val ≠ 0x7f) →
      read_sleb128 buffer offset = some (.error sleb128_overflow, offset + 10) ∧
      parse_sleb128 buffer offset = some (.error sleb128_overflow)) ∧
    (((∀ j < 9, ∃ b, buffer.buf[offset.toNat + j]? = some b ∧ b.val &&& 0x80 ≠ 0) ∧
        ∃ b, buffer.buf[offset.toNat + 9]? = some b ∧ (b.val = 0 ∨ b.val = 0x7f)) →
      ∃ v, read_sleb128 buffer offset = some (.ok v, offset + 10)) := by
  have hneg : ¬ offset < 0 := by omega
  obtain ⟨k, rfl⟩ := Int.eq_ofNat_of_zero_le h0
  simp only [Int.toNat_ofNat]
  have hiff := sleb_list_overflow_iff (buffer.buf.drop k)
  rw [conts_drop_iff] at hiff
  simp only [List.getElem?_drop] at hiff
  have heq := read_sleb128_eq buffer k
  refine ⟨?_, ?_, ?_⟩
  · rw [← hiff]
    constructor
    · rintro ⟨o, ho⟩
      rw [heq] at ho
      simp only [Option.some.injEq, Prod.mk.injEq] at ho
      exact ho.1
    · intro h
      exact ⟨_, by rw [heq, h]⟩
  · intro h
    have h1 := hiff.2 h
    have h2 := sleb_list_overflow_consumed _ h1
    have hread : read_sleb128 buffer (k : Int) = some (.error sleb128_overflow, (k : Int) + 10) := by
      rw [heq, h1, h2]; rfl
    refine ⟨hread, ?_⟩
    unfold parse_sleb128
    rw [if_neg hneg, hread]
    rfl
  · rintro ⟨hc, b, hget, hb⟩
    obtain ⟨v, hv⟩ := sleb_list_tenth_ok (buffer.buf.drop k)
      ((conts_drop_iff buffer.buf k 9).2 hc) b (by rw [List.getElem?_drop]; exact hget) hb
    exact ⟨v, by rw [heq, hv]; rfl⟩

/-- Witness of C6 on nine continuation bytes followed by the byte 1. -/
theorem read_sleb128_overflow_iff_witness :
    (0 : Int) ≤ 0 ∧
    read_sleb128 ⟨[0x80, 0x80, 0x80, 0x80, 0x80, 0x80, 0x80, 0x80, 0x80, 0x01]⟩ 0
      = some (.error sleb128_overflow, 0 + 10) :=
  ⟨by decide,
   ((read_sleb128_overflow_iff
      ⟨[0x80, 0x80, 0x80, 0x80, 0x80, 0x80, 0x80, 0x80, 0x80, 0x01]⟩ 0 (by decide)).2.1
      (by decide)).1⟩

/-- Fewer than ten bytes, all of them continuation bytes: both readers run out
of bytes after consuming all of them. -/
theorem leb_list_truncated (bs : List Byte)
    (hall : ∀ (j : Nat) (b : Byte), bs[j]? = some b → 128 ≤ b.val)
    (hfew : bs.length < 10) :
    uleb_list bs 0 0 = (.error ⟨.EOFError, ""⟩, bs.length) ∧
    sleb_list bs 0 0 = (.error ⟨.EOFError, ""⟩, bs.length) := by
  constructor
  · rcases uleb_list_cases bs 0 0 (by omega) (by norm_num)
      with ⟨m, hm, _, _, hr⟩ | ⟨m, b, _, hget, hlt, _, _, _⟩ | ⟨m, c, _, hget, _, hm, _⟩
    · rw [hr, hm]
    · have := hall m b hget; omega
    · have := getElem?_lt_length bs m c hget; omega
  · rcases sleb_list_cases bs 0 0 (by omega) (by norm_num)
      with ⟨m, hm, _, _, hr⟩ | ⟨m, b, _, hget, hlt, _, _, _⟩ | ⟨m, c, _, hget, _, _, hm, _⟩
    · rw [hr, hm]
    · have := hall m b hget; omega
    · have := getElem?_lt_length bs m c hget; omega

/-- C7. Truncation: from an offset `>= 0` such that every byte from the offset
to the end of the buffer has the high bit set and fewer than ten bytes remain
(none at all when `offset >= len`), `parse_uleb128`, `parse_uleb128_offset` and
`parse_sleb128` fail with the Truncated error, which is not the Overflow
error, and so with no value. -/
theorem parse_leb128_truncated (buffer : Py_buffer) (offset : Int) (h0 : 0 ≤ offset)
    (hall : ∀ (j : Nat) (b : Byte), offset.toNat ≤ j → buffer.buf[j]? = some b →
      b.val &&& 0x80 ≠ 0)
    (hfew : buffer.len - offset < 10) :
    parse_uleb128 buffer offset = some (.error uleb128_truncated) ∧
    parse_uleb128_offset buffer offset = some (.error uleb128_truncated) ∧
    parse_sleb128 buffer offset = some (.error sleb128_truncated) ∧
    uleb128_truncated ≠ uleb128_overflow ∧ sleb128_truncated ≠ sleb128_overflow := by
  have hneg : ¬ offset < 0 := by omega
  obtain ⟨k, rfl⟩ := Int.eq_ofNat_of_zero_le h0
  simp only [Int.toNat_ofNat] at hall
  have hlist := leb_list_truncated (buffer.buf.drop k)
    (by
      intro j b hget
      rw [List.getElem?_drop] at hget
      have h1 := hall (k + j) b (by omega) hget
      by_contra hc
      exact h1 ((byte_and_80 b).2 (by omega)))
    (by
      unfold Py_buffer.len at hfew
      rw [List.length_drop]
      omega)
  have hu := read_uleb128_eq buffer k
  have hs := read_sleb128_eq buffer k
  rw [hlist.1] at hu
  rw [hlist.2] at hs
  refine ⟨?_, ?_, ?_, by decide, by decide⟩
  · unfold parse_uleb128
    rw [if_neg hneg, hu]
    rfl
  · unfold parse_uleb128_offset
    rw [if_neg hneg, hu]
    rfl
  · unfold parse_sleb128
    rw [if_neg hneg, hs]
    rfl

/-- Witness of C7 on a buffer of two continuation bytes. -/
theorem parse_leb128_truncated_witness :
    (0 : Int) ≤ 0 ∧ (Py_buffer.mk [0x80, 0xff]).len - 0 < 10 ∧
    parse_uleb128 ⟨[0x80, 0xff]⟩ 0 = some (.error uleb128_truncated) ∧
    parse_uleb128_offset ⟨[0x80, 0xff]⟩ 0 = some (.error uleb128_truncated) ∧
    parse_sleb128 ⟨[0x80, 0xff]⟩ 0 = some (.error sleb128_truncated) ∧
    uleb128_truncated ≠ uleb128_overflow ∧ sleb128_truncated ≠ sleb128_overflow :=
  ⟨by decide, by decide,
   parse_leb128_truncated ⟨[0x80, 0xff]⟩ 0 (by decide)
    (by
      intro j b _ h
      rcases j with _ | _ | j
      · simp at h; subst h; decide
      · simp at h; subst h; decide
      · simp at h)
    (by decide)⟩

/-! ## The string reader -/

theorem memchr_none_iff (p : List Byte) (c : Byte) :
    ∀ n, memchr p c n = none ↔ ∀ (j : Nat) (b : Byte), j < n → p[j]? = some b → b ≠ c := by
  induction p with
  | nil =>
    intro n
    cases n <;> simp [memchr]
  | cons a p ih =>
    intro n
    cases n with
    | zero => simp [memchr]
    | succ n =>
      rw [memchr]
      by_cases ha : a = c
      · rw [if_pos ha]
        simp only [false_iff, reduceCtorEq]
        intro h
        exact h 0 a (by omega) (by simp) ha
      · rw [if_neg ha]
        simp only [Option.map_eq_none']
        rw [ih n]
        constructor
        · intro h j b hj hget
          cases j with
          | zero =>
            simp only [List.getElem?_cons_zero, Option.some.injEq] at hget
            subst hget; exact ha
          | succ j =>
            simp only [List.getElem?_cons_succ] at hget
            exact h j b (by omega) hget
        · intro h j b hj hget
          exact h (j + 1) b (by omega) (by simpa using hget)

theorem memchr_some (p : List Byte) (c : Byte) :
    ∀ n k, memchr p c n = some k →
      k < n ∧ p[k]? = some c ∧ ∀ j < k, ∃ b, p[j]? = some b ∧ b ≠ c := by
  induction p with
  | nil =>
    intro n k h
    cases n <;> simp [memchr] at h
  | cons a p ih =>
    intro n k h
    cases n with
    | zero => simp [memchr] at h
    | succ n =>
      rw [memchr] at h
      by_cases ha : a = c
      · rw [if_pos ha] at h
        simp only [Option.some.injEq] at h
        subst h
        exact ⟨by omega, by simp [ha], fun j hj => absurd hj (Nat.not_lt_zero j)⟩
      · rw [if_neg ha] at h
        simp only [Option.map_eq_some'] at h
        obtain ⟨k', hk', rfl⟩ := h
        obtain ⟨h1, h2, h3⟩ := ih n k' hk'
        refine ⟨by omega, by simpa using h2, ?_⟩
        intro j hj
        cases j with
        | zero => exact ⟨a, by simp, ha⟩
        | succ j =>
          obtain ⟨b, hb, hb'⟩ := h3 j (by omega)
          exact ⟨b, by simpa using hb, hb'⟩

theorem read_strlen_of_ge (buffer : Py_buffer) (offset : Int) (h : buffer.len ≤ offset) :
    read_strlen buffer offset = (.error strlen_eof, offset) := by
  unfold read_strlen
  rw [if_pos (by omega)]
  rfl

theorem read_strlen_of_lt (buffer : Py_buffer) (k : Nat) (h : (k : Int) < buffer.len) :
    read_strlen buffer (k : Int) =
      match memchr (buffer.buf.drop k) 0 (buffer.buf.drop k).length with
      | none => (.error strlen_unterminated, (k : Int))
      | some nul => (.ok (nul : Int), (k : Int) + ((nul : Int) + 1)) := by
  unfold read_strlen
  rw [if_neg (by omega)]
  have hn : (buffer.len - (k : Int)).toNat = (buffer.buf.drop k).length := by
    unfold Py_buffer.len at *
    rw [List.length_drop]
    omega
  simp only [Int.toNat_ofNat, hn]
  rfl

/-- C8. String reader: from an offset `>= 0`, `read_strlen` (a) fails with Eof
exactly when `offset >= len`; (b) otherwise fails with Unterminated exactly
when no byte in `[offset, len)` is zero; (c) otherwise succeeds with `len` the
distance from the offset to the first zero byte, so that the bytes in
`[offset, offset + len)` are non-zero and the byte at `offset + len` is zero,
and moves the offset to `offset + len + 1`, which is at most the buffer
length. On either failure the offset is left unchanged. -/
theorem read_strlen_spec (buffer : Py_buffer) (offset : Int) (h0 : 0 ≤ offset) :
    ((read_strlen buffer offset).1 = .error strlen_eof ↔ buffer.len ≤ offset) ∧
    (offset < buffer.len →
      ((read_strlen buffer offset).1 = .error strlen_unterminated ↔
        ∀ (j : Nat) (b : Byte), offset.toNat ≤ j → buffer.buf[j]? = some b → b ≠ 0)) ∧
    (offset < buffer.len → (∃ j : Nat, offset.toNat ≤ j ∧ buffer.buf[j]? = some 0) →
      ∃ len : Nat, read_strlen buffer offset = (.ok (len : Int), offset + len + 1) ∧
        buffer.buf[offset.toNat + len]? = some 0 ∧
        (∀ j < len, ∃ b, buffer.buf[offset.toNat + j]? = some b ∧ b ≠ 0) ∧
        offset + len + 1 ≤ buffer.len) ∧
    (∀ e, (read_strlen buffer offset).1 = .error e → (read_strlen buffer offset).2 = offset) := by
  obtain ⟨k, rfl⟩ := Int.eq_ofNat_of_zero_le h0
  simp only [Int.toNat_ofNat]
  have hnone := memchr_none_iff (buffer.buf.drop k) 0 (buffer.buf.drop k).length
  have hsome := memchr_some (buffer.buf.drop k) 0 (buffer.buf.drop k).length
  have hnz : (∀ (j : Nat) (b : Byte), j < (buffer.buf.drop k).length →
        (buffer.buf.drop k)[j]? = some b → b ≠ 0) ↔
      ∀ (j : Nat) (b : Byte), k ≤ j → buffer.buf[j]? = some b → b ≠ 0 := by
    constructor
    · intro h j b hj hget
      have hlt := getElem?_lt_length _ _ _ hget
      refine h (j - k) b (by rw [List.length_drop]; omega) ?_
      rw [List.getElem?_drop]
      have : k + (j - k) = j := by omega
      rw [this]; exact hget
    · intro h j b _ hget
      rw [List.getElem?_drop] at hget
      exact h (k + j) b (by omega) hget
  refine ⟨?_, ?_, ?_, ?_⟩
  · constructor
    · intro h
      by_contra hc
      rw [read_strlen_of_lt buffer k (by omega)] at h
      cases hm : memchr (buffer.buf.drop k) 0 (buffer.buf.drop k).length with
      | none =>
        rw [hm] at h
        have hne : strlen_unterminated ≠ strlen_eof := by decide
        simp only [Except.error.injEq] at h
        exact hne h
      | some nul => rw [hm] at h; simp at h
    · intro h
      rw [read_strlen_of_ge buffer k h]
  · intro hlt
    rw [read_strlen_of_lt buffer k hlt, ← hnz, ← hnone]
    cases hm : memchr (buffer.buf.drop k) 0 (buffer.buf.drop k).length with
    | none => simp
    | some nul => simp
  · rintro hlt ⟨j, hj, hget⟩
    rw [read_strlen_of_lt buffer k hlt]
    cases hm : memchr (buffer.buf.drop k) 0 (buffer.buf.drop k).length with
    | none =>
      exfalso
      exact (hnz.1 ((hnone).1 hm)) j 0 hj hget rfl
    | some nul =>
      obtain ⟨h1, h2, h3⟩ := hsome nul hm
      rw [List.getElem?_drop] at h2
      have hlen := getElem?_lt_length _ _ _ h2
      refine ⟨nul, ?_, h2, ?_, ?_⟩
      · simp only [Prod.mk.injEq, true_and]
        omega
      · intro i hi
        obtain ⟨b, hb, hb'⟩ := h3 i hi
        rw [List.getElem?_drop] at hb
        exact ⟨b, hb, hb'⟩
      · unfold Py_buffer.len
        omega
  · intro e he
    by_cases hlt : (k : Int) < buffer.len
    · rw [read_strlen_of_lt buffer k hlt] at he ⊢
      cases hm : memchr (buffer.buf.drop k) 0 (buffer.buf.drop k).length with
      | none => rfl
      | some nul => rw [hm] at he; simp at he
    · rw [read_strlen_of_ge buffer k (by omega)]

/-- Witness of C8 on the string "AB" followed by another byte. -/
theorem read_strlen_spec_witness :
    (0 : Int) ≤ 0 ∧ read_strlen ⟨[0x41, 0x42, 0x00, 0x43]⟩ 0 = (.ok 2, 3) ∧
    ((read_strlen ⟨[0x41, 0x42, 0x00, 0x43]⟩ 0).1 = .error strlen_eof ↔
      (Py_buffer.mk [0x41, 0x42, 0x00, 0x43]).len ≤ 0) :=
  ⟨by decide, by decide, (read_strlen_spec ⟨[0x41, 0x42, 0x00, 0x43]⟩ 0 (by decide)).1⟩

/-! ## Starting offsets outside the buffer -/

/-- C9, counterexample: on the one-byte buffer `[0x00]` the starting offset 2
is greater than the buffer length, and the three entry points fail with the
Truncated error itself, not with an error distinct from it. -/
theorem invalid_offset_counterexample :
    (Py_buffer.mk [0x00]).len < 2 ∧
    parse_uleb128 ⟨[0x00]⟩ 2 = some (.error uleb128_truncated) ∧
    parse_sleb128 ⟨[0x00]⟩ 2 = some (.error sleb128_truncated) ∧
    parse_uleb128_offset ⟨[0x00]⟩ 2 = some (.error uleb128_truncated) ∧
    ¬ (∃ e : PyErr, parse_uleb128 ⟨[0x00]⟩ 2 = some (.error e) ∧ e ≠ uleb128_truncated) := by
  refine ⟨by decide, by decide, by decide, by decide, ?_⟩
  rintro ⟨e, he, hne⟩
  have h : parse_uleb128 ⟨[0x00]⟩ 2 = some (.error uleb128_truncated) := by decide
  rw [h] at he
  simp only [Option.some.injEq, Except.error.injEq] at he
  exact hne he.symm

/-- C9, amended: a negative starting offset makes `parse_uleb128`,
`parse_sleb128` and `parse_uleb128_offset` fail with the error "offset cannot
be negative", which is distinct from the Truncated and Overflow errors; a
starting offset greater than the buffer length makes them fail with the
Truncated error, the first byte read failing already. In both cases the
outcome does not depend on any byte of the buffer. -/
theorem parse_offset_out_of_range (buffer : Py_buffer) (offset : Int) :
    (offset < 0 →
      parse_uleb128 buffer offset = some (.error negative_offset) ∧
      parse_sleb128 buffer offset = some (.error negative_offset) ∧
      parse_uleb128_offset buffer offset = some (.error negative_offset)) ∧
    (buffer.len < offset →
      (read_u8 buffer offset).1 = .error ⟨.EOFError, ""⟩ ∧
      parse_uleb128 buffer offset = some (.error uleb128_truncated) ∧
      parse_sleb128 buffer offset = some (.error sleb128_truncated) ∧
      parse_uleb128_offset buffer offset = some (.error uleb128_truncated)) ∧
    negative_offset ≠ uleb128_truncated ∧ negative_offset ≠ sleb128_truncated ∧
    negative_offset ≠ uleb128_overflow ∧ negative_offset ≠ sleb128_overflow := by
  refine ⟨?_, ?_, by decide, by decide, by decide, by decide⟩
  · intro h
    unfold parse_uleb128 parse_sleb128 parse_uleb128_offset
    rw [if_pos h, if_pos h, if_pos h]
    exact ⟨rfl, rfl, rfl⟩
  · intro h
    have hlen : (0 : Int) ≤ buffer.len := by unfold Py_buffer.len; omega
    have h0 : 0 ≤ offset := by omega
    have hneg : ¬ offset < 0 := by omega
    obtain ⟨k, rfl⟩ := Int.eq_ofNat_of_zero_le h0
    have hk : buffer.buf.length ≤ k := by unfold Py_buffer.len at h; omega
    have hu := read_uleb128_eq buffer k
    have hs := read_sleb128_eq buffer k
    have h8 := read_u8_drop buffer k
    rw [List.drop_eq_nil_of_le hk] at hu hs h8
    refine ⟨by rw [h8], ?_, ?_, ?_⟩
    · unfold parse_uleb128
      rw [if_neg hneg, hu]
      rfl
    · unfold parse_sleb128
      rw [if_neg hneg, hs]
      rfl
    · unfold parse_uleb128_offset
      rw [if_neg hneg, hu]
      rfl

/-- Witness of the amended C9 at the offset -1 and at the offset 2 of a
one-byte buffer. -/
theorem parse_offset_out_of_range_witness :
    ((-1 : Int) < 0 ∧ parse_uleb128 ⟨[0x00]⟩ (-1) = some (.error negative_offset)) ∧
    ((Py_buffer.mk [0x00]).len < 2 ∧
      parse_uleb128 ⟨[0x00]⟩ 2 = some (.error uleb128_truncated)) :=
  ⟨⟨by decide, ((parse_offset_out_of_range ⟨[0x00]⟩ (-1)).1 (by decide)).1⟩,
   ⟨by decide, ((parse_offset_out_of_range ⟨[0x00]⟩ 2).2.1 (by decide)).2.1⟩⟩

/-! ## What the Overflow error means -/

/-- On a terminated encoding of `n` bytes the unsigned loop overflows exactly
when the encoding is longer than ten bytes or spells a value of at least
`2 ^ 64`. -/
theorem uleb_list_overflow_meaning (bs : List Byte) (n : Nat) (hn : 1 ≤ n) (b : Byte)
    (hterm : bs[n - 1]? = some b) (hb : b.val < 128) (hcont : conts bs (n - 1)) :
    ((uleb_list bs 0 0).1 = .error uleb128_overflow ↔ (10 < n ∨ 2 ^ 64 ≤ group_sum bs n)) ∧
    (n ≤ 10 → group_sum bs n < 2 ^ 64 → uleb_list bs 0 0 = (.ok (group_sum bs n), n)) := by
  have hsum : group_sum bs n = group_sum bs (n - 1) + (b.val % 128) * 2 ^ (7 * (n - 1)) := by
    have h := group_sum_succ bs (n - 1)
    rw [getD_of_getElem? bs (n - 1) b hterm] at h
    have hn' : n - 1 + 1 = n := by omega
    rw [hn'] at h
    exact h
  have hiff : (uleb_list bs 0 0).1 = .error uleb128_overflow ↔
      (10 < n ∨ 2 ^ 64 ≤ group_sum bs n) := by
    rw [uleb_list_overflow_iff]
    constructor
    · rintro ⟨hc9, c, hget, hgt⟩
      by_cases h10 : 10 < n
      · exact Or.inl h10
      · right
        have hn10 : n = 10 := by
          by_contra hne
          obtain ⟨d, hd, hd'⟩ := hc9 (n - 1) (by omega)
          rw [hterm] at hd
          simp only [Option.some.injEq] at hd
          subst hd
          omega
        subst hn10
        rw [hget] at hterm
        simp only [Option.some.injEq] at hterm
        subst hterm
        rw [hsum]
        norm_num
        omega
    · rintro (h10 | hge)
      · refine ⟨fun j hj => hcont j (by omega), ?_⟩
        obtain ⟨d, hd, hd'⟩ := hcont 9 (by omega)
        exact ⟨d, hd, by omega⟩
      · have hlt := group_sum_lt bs n
        have hlt9 := group_sum_lt bs (n - 1)
        have hn10 : 10 ≤ n := by
          by_contra hc
          have : 2 ^ (7 * n) ≤ 2 ^ 63 := Nat.pow_le_pow_right (by norm_num) (by omega)
          norm_num at this hge
          omega
        by_cases h10 : 10 < n
        · refine ⟨fun j hj => hcont j (by omega), ?_⟩
          obtain ⟨d, hd, hd'⟩ := hcont 9 (by omega)
          exact ⟨d, hd, by omega⟩
        · have hn' : n = 10 := by omega
          subst hn'
          refine ⟨hcont, b, hterm, ?_⟩
          rw [hsum] at hge
          norm_num at hge hlt9
          omega
  refine ⟨hiff, ?_⟩
  intro hn10 hlt
  rcases uleb_list_cases bs 0 0 (by omega) (by norm_num)
    with ⟨m, hm, hc, _, hr⟩ | ⟨m, c, hc, hget, hclt, _, _, hr⟩ | ⟨m, c, _, _, _, _, hr⟩
  · exfalso
    have := getElem?_lt_length bs _ b hterm
    obtain ⟨d, hd, hd'⟩ := hc (n - 1) (by omega)
    rw [hterm] at hd
    simp only [Option.some.injEq] at hd
    subst hd
    omega
  · have hmn : m = n - 1 := by
      by_contra hne
      by_cases hlt' : m < n - 1
      · obtain ⟨d, hd, hd'⟩ := hcont m hlt'
        rw [hget] at hd
        simp only [Option.some.injEq] at hd
        subst hd
        omega
      · obtain ⟨d, hd, hd'⟩ := hc (n - 1) (by omega)
        rw [hterm] at hd
        simp only [Option.some.injEq] at hd
        subst hd
        omega
    subst hmn
    have hn' : n - 1 + 1 = n := by omega
    rw [hr, hn']
    simp
  · exfalso
    have h1 : (uleb_list bs 0 0).1 = .error uleb128_overflow := by rw [hr]
    rcases hiff.1 h1 with h | h <;> omega

/-- C10, counterexample: ten bytes 0x80 followed by 0x00 are a terminated
encoding whose value is 0, far below `2 ^ 64`, and `read_uleb128` rejects it
with Overflow instead of decoding it. -/
theorem overflow_meaning_counterexample :
    (Py_buffer.mk [0x80, 0x80, 0x80, 0x80, 0x80, 0x80, 0x80, 0x80, 0x80, 0x80, 0x00]).buf[10]?
      = some 0x00 ∧
    (∑ i ∈ Finset.range 11,
      (((Py_buffer.mk [0x80, 0x80, 0x80, 0x80, 0x80, 0x80, 0x80, 0x80, 0x80, 0x80, 0x00]).buf.getD
        i 0).val &&& 0x7f) * 2 ^ (7 * i)) = 0 ∧
    read_uleb128 ⟨[0x80, 0x80, 0x80, 0x80, 0x80, 0x80, 0x80, 0x80, 0x80, 0x80, 0x00]⟩ 0
      = some (.error uleb128_overflow, 10) := by
  refine ⟨by decide, by decide, by decide⟩

/-- C10, amended: at an offset `>= 0` where a terminated ULEB128 encoding of
`n` bytes starts (the byte at `offset + n - 1` is the first with the high bit
clear), `read_uleb128` fails with Overflow if and only if the encoding is
longer than ten bytes or the unsigned integer it spells is at least `2 ^ 64`;
an encoding of at most ten bytes whose value fits in 64 bits is decoded to
that value, the offset moving past its `n` bytes. -/
theorem read_uleb128_overflow_meaning (buffer : Py_buffer) (offset : Int) (h0 : 0 ≤ offset)
    (n : Nat) (hn : 1 ≤ n)
    (hterm : ∃ b, buffer.buf[offset.toNat + (n - 1)]? = some b ∧ b.val &&& 0x80 = 0)
    (hcont : ∀ j, j + 1 < n →
      ∃ b, buffer.buf[offset.toNat + j]? = some b ∧ b.val &&& 0x80 ≠ 0) :
    ((∃ offset', read_uleb128 buffer offset = some (.error uleb128_overflow, offset')) ↔
      (10 < n ∨ 2 ^ 64 ≤ ∑ i ∈ Finset.range n,
        ((buffer.buf.getD (offset.toNat + i) 0).val &&& 0x7f) * 2 ^ (7 * i))) ∧
    (n ≤ 10 →
      (∑ i ∈ Finset.range n,
        ((buffer.buf.getD (offset.toNat + i) 0).val &&& 0x7f) * 2 ^ (7 * i)) < 2 ^ 64 →
      read_uleb128 buffer offset =
        some (.ok (∑ i ∈ Finset.range n,
          ((buffer.buf.getD (offset.toNat + i) 0).val &&& 0x7f) * 2 ^ (7 * i)), offset + n)) := by
  obtain ⟨k, rfl⟩ := Int.eq_ofNat_of_zero_le h0
  simp only [Int.toNat_ofNat] at hterm hcont ⊢
  obtain ⟨b, hget, hb⟩ := hterm
  have hl := uleb_list_overflow_meaning (buffer.buf.drop k) n hn b
    (by rw [List.getElem?_drop]; exact hget) ((byte_and_80 b).1 hb)
    ((conts_drop_iff buffer.buf k (n - 1)).2 (fun j hj => hcont j (by omega)))
  rw [group_sum_drop] at hl
  have heq := read_uleb128_eq buffer k
  constructor
  · rw [← hl.1]
    constructor
    · rintro ⟨o, ho⟩
      rw [heq] at ho
      simp only [Option.some.injEq, Prod.mk.injEq] at ho
      exact ho.1
    · intro h
      exact ⟨_, by rw [heq, h]⟩
  · intro hn10 hlt
    rw [heq, hl.2 hn10 hlt]

/-- Witness of the amended C10 on the two-byte encoding of 128. -/
theorem read_uleb128_overflow_meaning_witness :
    (0 : Int) ≤ 0 ∧ 1 ≤ 2 ∧
    ((∃ offset', read_uleb128 ⟨[0x80, 0x01]⟩ 0 = some (.error uleb128_overflow, offset')) ↔
      (10 < 2 ∨ 2 ^ 64 ≤ ∑ i ∈ Finset.range 2,
        (((Py_buffer.mk [0x80, 0x01]).buf.getD ((0 : Int).toNat + i) 0).val &&& 0x7f)
          * 2 ^ (7 * i))) :=
  ⟨by decide, by decide,
   (read_uleb128_overflow_meaning ⟨[0x80, 0x01]⟩ 0 (by decide) 2 (by decide)
      ⟨0x01, by decide, by decide⟩
      (by
        intro j hj
        have hj0 : j = 0 := by omega
        subst hj0
        exact ⟨0x80, by decide, by decide⟩)).1⟩

/-! ## The value of a successful signed decode -/

/-- A successful signed decode of `n` bytes: where it stopped and what it
returned. -/
theorem sleb_list_ok (bs : List Byte) (v : Int) (n : Nat) (h : sleb_list bs 0 0 = (.ok v, n)) :
    ∃ last : Byte, 1 ≤ n ∧ n ≤ 10 ∧ bs[n - 1]? = some last ∧ last.val < 128 ∧
      conts bs (n - 1) ∧ (n = 10 → last.val = 0 ∨ last.val = 0x7f) ∧
      v = (group_sum bs n : Nat) - (if 64 ≤ last.val then (2 : Int) ^ (7 * n) else 0) := by
  rcases sleb_list_cases bs 0 0 (by omega) (by norm_num)
    with ⟨m, _, _, _, hr⟩ | ⟨m, b, hc, hget, hlt, hle, h9, hr⟩ | ⟨m, c, _, _, _, _, _, hr⟩
  · rw [hr] at h; simp at h
  · rw [hr] at h
    simp only [Nat.mul_zero, pow_zero, one_mul, Nat.cast_zero, zero_add, Prod.mk.injEq,
      Except.ok.injEq] at h
    obtain ⟨hv, hn⟩ := h
    subst hn
    refine ⟨b, by omega, by omega, by simpa using hget, hlt, by simpa using hc,
      fun h => h9 (by omega), ?_⟩
    rw [← hv]
  · rw [hr] at h; simp [sleb128_overflow] at h

/-- The value `S - [sign] * 2 ^ (7 * n)` of a signed decode is a signed 64-bit
integer; below ten bytes its bits from `7 * n` up all equal the sign bit of the
last byte, and at ten bytes its bit pattern is that of the groups alone. -/
theorem sleb_value_facts (bs : List Byte) (n : Nat) (last : Byte) (hn1 : 1 ≤ n) (hn : n ≤ 10)
    (hget : bs[n - 1]? = some last)
    (h10 : n = 10 → last.val = 0 ∨ last.val = 0x7f) (v : Int)
    (hv : v = (group_sum bs n : Nat) - (if 64 ≤ last.val then (2 : Int) ^ (7 * n) else 0)) :
    -2 ^ 63 ≤ v ∧ v < 2 ^ 63 ∧
    (n ≤ 9 → ∀ j, 7 * n ≤ j → j < 64 →
      ((v % 2 ^ 64).toNat.testBit j = true ↔ 64 ≤ last.val)) ∧
    (n = 10 → (v % 2 ^ 64).toNat = group_sum bs n % 2 ^ 64 ∧
      ((last.val = 0 ∧ 0 ≤ v) ∨ (last.val = 0x7f ∧ v < 0))) := by
  have hS := group_sum_lt bs n
  by_cases hten : n = 10
  · subst hten
    have hsum := group_sum_succ bs 9
    rw [getD_of_getElem? bs 9 last hget] at hsum
    have h9 := group_sum_lt bs 9
    norm_num at hsum h9 hv
    rcases h10 rfl with hl | hl
    · rw [hl] at hsum hv
      norm_num at hsum hv
      refine ⟨by omega, by omega, fun h => by omega, fun _ => ⟨by omega, Or.inl ⟨hl, by omega⟩⟩⟩
    · rw [hl] at hsum hv
      norm_num at hsum hv
      refine ⟨by omega, by omega, fun h => by omega, fun _ => ⟨by omega, Or.inr ⟨hl, by omega⟩⟩⟩
  · have hn9 : n ≤ 9 := by omega
    have hP : 2 ^ (7 * n) ≤ 2 ^ 63 := Nat.pow_le_pow_right (by norm_num) (by omega)
    have hc : ((2 : Int) ^ (7 * n)) = ((2 ^ (7 * n) : Nat) : Int) := by push_cast; rfl
    rw [hc] at hv
    by_cases hsign : 64 ≤ last.val
    · rw [if_pos hsign] at hv
      have hpat : (v % 2 ^ 64).toNat = 2 ^ (7 * n) * (2 ^ (64 - 7 * n) - 1) + group_sum bs n := by
        have hmul : 2 ^ (7 * n) * 2 ^ (64 - 7 * n) = 2 ^ 64 := by
          rw [← Nat.pow_add]; congr 1; omega
        rw [Nat.mul_sub, Nat.mul_one, hmul]
        generalize 2 ^ (7 * n) = P at *
        generalize group_sum bs n = S at *
        norm_num at hP ⊢
        omega
      refine ⟨?_, ?_, ?_, fun h => absurd h hten⟩
      · generalize 2 ^ (7 * n) = P at *
        norm_num at hP ⊢
        omega
      · generalize 2 ^ (7 * n) = P at *
        norm_num at hP ⊢
        omega
      · intro _ j hj hj64
        rw [hpat, Nat.testBit_mul_pow_two_add _ hS, if_neg (by omega),
          Nat.testBit_two_pow_sub_one]
        simp only [decide_eq_true_eq]
        constructor
        · intro _; exact hsign
        · intro _; omega
    · rw [if_neg hsign] at hv
      have hpat : (v % 2 ^ 64).toNat = group_sum bs n := by
        generalize 2 ^ (7 * n) = P at *
        generalize group_sum bs n = S at *
        norm_num at hP ⊢
        omega
      refine ⟨?_, ?_, ?_, fun h => absurd h hten⟩
      · generalize 2 ^ (7 * n) = P at *
        norm_num at hP ⊢
        omega
      · generalize 2 ^ (7 * n) = P at *
        norm_num at hP ⊢
        omega
      · intro _ j hj hj64
        have hlt' : group_sum bs n < 2 ^ j :=
          Nat.lt_of_lt_of_le hS (Nat.pow_le_pow_right (by norm_num) hj)
        rw [hpat, Nat.testBit_lt_two_pow hlt']
        simp only [Bool.false_eq_true, false_iff]
        exact hsign

/-- C4. Sign extension of a successful signed decode: if `read_sleb128`
succeeds from an offset `>= 0` having consumed `n` bytes, then `n` is the
position of the first byte with the high bit clear, `1 <= n <= 10`, and the
value is the sum of `(byte[offset + i] & 0x7f) * 2 ^ (7 * i)` over `i < n`,
minus `2 ^ (7 * n)` when bit 0x40 of the last byte is set; it lies in
`[-2 ^ 63, 2 ^ 63)`. For `n <= 9` the bits of the 64-bit pattern from position
`7 * n` up are all 1 exactly when bit 0x40 of the last byte is set; for
`n = 10` the pattern is that of the groups alone (no sign extension) and the
tenth byte is 0x00 with a non-negative value or 0x7f with a negative one. -/
theorem read_sleb128_success (buffer : Py_buffer) (offset : Int) (v : Int) (offset' : Int)
    (h0 : 0 ≤ offset) (h : read_sleb128 buffer offset = some (.ok v, offset')) :
    ∃ (n : Nat) (last : Byte), 1 ≤ n ∧ n ≤ 10 ∧ offset' = offset + n ∧
      buffer.buf[offset.toNat + (n - 1)]? = some last ∧ last.val &&& 0x80 = 0 ∧
      (∀ j, j + 1 < n → ∃ b, buffer.buf[offset.toNat + j]? = some b ∧ b.val &&& 0x80 ≠ 0) ∧
      v = ((∑ i ∈ Finset.range n,
              ((buffer.buf.getD (offset.toNat + i) 0).val &&& 0x7f) * 2 ^ (7 * i) : Nat) : Int)
            - (if last.val &&& 0x40 ≠ 0 then (2 : Int) ^ (7 * n) else 0) ∧
      -2 ^ 63 ≤ v ∧ v < 2 ^ 63 ∧
      (n ≤ 9 → ∀ j, 7 * n ≤ j → j < 64 →
        ((v % 2 ^ 64).toNat.testBit j = true ↔ last.val &&& 0x40 ≠ 0)) ∧
      (n = 10 →
        (v % 2 ^ 64).toNat = (∑ i ∈ Finset.range n,
          ((buffer.buf.getD (offset.toNat + i) 0).val &&& 0x7f) * 2 ^ (7 * i)) % 2 ^ 64 ∧
        ((last.val = 0 ∧ 0 ≤ v) ∨ (last.val = 0x7f ∧ v < 0))) := by
  obtain ⟨k, rfl⟩ := Int.eq_ofNat_of_zero_le h0
  rw [read_sleb128_eq] at h
  simp only [Int.toNat_ofNat]
  simp only [Option.some.injEq, Prod.mk.injEq] at h
  obtain ⟨hv, ho⟩ := h
  have hpair : sleb_list (buffer.buf.drop k) 0 0 = (.ok v, (sleb_list (buffer.buf.drop k) 0 0).2) := by
    rw [← hv]
  obtain ⟨last, hn1, hn10, hget, hlt, hc, h10, hval⟩ := sleb_list_ok _ v _ hpair
  have hfacts := sleb_value_facts _ _ last hn1 hn10 hget h10 v hval
  generalize (sleb_list (buffer.buf.drop k) 0 0).2 = n at *
  have h40 : last.val &&& 0x40 ≠ 0 ↔ 64 ≤ last.val := by
    have := byte_and_40 last
    rw [Nat.mod_eq_of_lt hlt] at this
    constructor
    · intro h; by_contra hc'; exact h (this.2 (by omega))
    · intro h h'; have := this.1 h'; omega
  rw [List.getElem?_drop] at hget
  rw [group_sum_drop] at hval hfacts
  refine ⟨n, last, hn1, hn10, ho.symm, hget, (byte_and_80 last).2 hlt,
    fun j hj => (conts_drop_iff buffer.buf k (n - 1)).1 hc j (by omega), ?_, hfacts.1,
    hfacts.2.1, ?_, hfacts.2.2.2⟩
  · rw [hval]
    by_cases hs : 64 ≤ last.val
    · rw [if_pos hs, if_pos (h40.2 hs)]
    · rw [if_neg hs, if_neg (fun h => hs (h40.1 h))]
  · intro h9 j hj hj64
    rw [h40]
    exact hfacts.2.2.1 h9 j hj hj64

/-- Witness of C4 on the three bytes that spell -624485. -/
theorem read_sleb128_success_witness :
    (0 : Int) ≤ 0 ∧ read_sleb128 ⟨[0x9B, 0xF1, 0x59]⟩ 0 = some (.ok (-624485), 3) ∧
    ∃ (n : Nat) (last : Byte), 1 ≤ n ∧ n ≤ 10 ∧ (3 : Int) = 0 + n ∧
      (Py_buffer.mk [0x9B, 0xF1, 0x59]).buf[(0 : Int).toNat + (n - 1)]? = some last ∧
      last.val &&& 0x80 = 0 ∧
      (∀ j, j + 1 < n → ∃ b, (Py_buffer.mk [0x9B, 0xF1, 0x59]).buf[(0 : Int).toNat + j]? = some b ∧
        b.val &&& 0x80 ≠ 0) ∧
      (-624485 : Int) = ((∑ i ∈ Finset.range n,
              (((Py_buffer.mk [0x9B, 0xF1, 0x59]).buf.getD ((0 : Int).toNat + i) 0).val &&& 0x7f)
                * 2 ^ (7 * i) : Nat) : Int)
            - (if last.val &&& 0x40 ≠ 0 then (2 : Int) ^ (7 * n) else 0) ∧
      -2 ^ 63 ≤ (-624485 : Int) ∧ (-624485 : Int) < 2 ^ 63 ∧
      (n ≤ 9 → ∀ j, 7 * n ≤ j → j < 64 →
        (((-624485 : Int) % 2 ^ 64).toNat.testBit j = true ↔ last.val &&& 0x40 ≠ 0)) ∧
      (n = 10 →
        ((-624485 : Int) % 2 ^ 64).toNat = (∑ i ∈ Finset.range n,
          (((Py_buffer.mk [0x9B, 0xF1, 0x59]).buf.getD ((0 : Int).toNat + i) 0).val &&& 0x7f)
            * 2 ^ (7 * i)) % 2 ^ 64 ∧
        ((last.val = 0 ∧ 0 ≤ (-624485 : Int)) ∨ (last.val = 0x7f ∧ (-624485 : Int) < 0))) :=
  ⟨by decide, by decide,
   read_sleb128_success ⟨[0x9B, 0xF1, 0x59]⟩ 0 (-624485) 3 (by decide) (by decide)⟩
